import Mathlib

/-!
Verification development for the arXiv LLM-papers ingestion pipeline.

The definitions below are a shallow embedding of the JavaScript sources:
`scripts/utils/deduplicator.js` (deduplicatePapers, mergePapers),
`scripts/categorize-papers.js` (categorizePaper, categorizePapers),
`scripts/build-index.js` (buildIndex), `scripts/utils/xml-parser.js`
(extractArxivId), `scripts/fetch-arxiv.js` (fetchPapersForQuery,
fetchPapersMultiQuery), and the incremental-update pipeline
(organizePapersByYear, per-year merge and save).

JavaScript-specific conventions used throughout:
* a field that may be `undefined`/`null` in a record is an `Option`;
  a JS array is truthy even when empty, so `a || b` on array-or-undefined
  values keeps `a` whenever the field is present (`jsOrArr`);
* JS `Map` keeps insertion order and `set` on an existing key overwrites
  in place; it is embedded as an association list (`setKey`/`getKey`);
* `new Date(s)` comparison of the ISO-8601 UTC timestamps stored by the
  pipeline is order-isomorphic to the numeric value of the digit sequence
  of `s`; `dateVal` embeds that comparison key.
-/

/-- An author entry `{name, affiliation}`; `affiliation` may be absent. -/
structure Author where
  name : String
  affiliation : Option String
deriving DecidableEq, Repr

/-- The `tags` object `{auto, manual}`; either list may be absent in
records persisted by older versions, which the JS code guards with `?.`. -/
structure Tags where
  auto : Option (List String)
  manual : Option (List String)
deriving DecidableEq, Repr

/-- A paper record as produced by the parser / categorizer and stored in
the year files.  Fields the merge, index and pipeline code reads. -/
structure Paper where
  id : String
  title : String
  abstract : String
  authors : List Author
  publishedDate : String
  updatedDate : Option String
  arxivUrl : Option String
  categories : Option (List String)
  tags : Option Tags
deriving DecidableEq, Repr

/-- JS `a || b` where `a` is a string-or-undefined: `undefined` and the
empty string are falsy, any other string is truthy. -/
def jsOrStr (a : Option String) (b : String) : String :=
  match a with
  | some s => if s = "" then b else s
  | none => b

/-- JS `a || b` where `a` is an array-or-undefined: an array is truthy
even when empty, so only an absent field falls through to `b`. -/
def jsOrArr (a : Option (List String)) (b : Option (List String)) :
    Option (List String) :=
  match a with
  | some l => some l
  | none => b

/-- Comparison key of `new Date(s)` for the ISO-8601 UTC timestamps the
pipeline stores: chronological order coincides with the numeric order of
the digit sequence of such strings. -/
def dateVal (s : String) : Nat :=
  (s.data.filter Char.isDigit).foldl (fun n c => n * 10 + (c.toNat - 48)) 0

/-- `existing.updatedDate || existing.publishedDate` (deduplicator.js,
lines 243-244). -/
def revDate (p : Paper) : String :=
  jsOrStr p.updatedDate p.publishedDate

/-- The recency key the merge compares:
`new Date(p.updatedDate || p.publishedDate)`. -/
def recencyVal (p : Paper) : Nat :=
  dateVal (revDate p)

/-- Lookup in a JS `Map` embedded as an association list. -/
def getKey {κ α : Type} [DecidableEq κ] (m : List (κ × α)) (k : κ) :
    Option α :=
  (m.find? (fun kv => kv.1 = k)).map Prod.snd

/-- `Map.prototype.set`: overwrite the entry for the key in place when it
is present, append otherwise (JS `Map` preserves insertion order and
holds at most one entry per key). -/
def setKey {κ α : Type} [DecidableEq κ] : List (κ × α) → κ → α → List (κ × α)
  | [], k, v => [(k, v)]
  | kv :: m, k, v => if kv.1 = k then (k, v) :: m else kv :: setKey m k v

/-- Information recorded about a dropped duplicate (deduplicator.js,
lines 205-209). -/
structure DupInfo where
  id : String
  title : String
  duplicate_of : String
deriving DecidableEq, Repr

/-- One step of `deduplicatePapers` over (unique, duplicates, seen). -/
def dedupStep (acc : List Paper × List DupInfo × List (String × Paper))
    (paper : Paper) :
    List Paper × List DupInfo × List (String × Paper) :=
  match getKey acc.2.2 paper.id with
  | none => (acc.1 ++ [paper], acc.2.1, setKey acc.2.2 paper.id paper)
  | some first =>
      (acc.1, acc.2.1 ++ [⟨paper.id, paper.title, first.title⟩], acc.2.2)

/-- `deduplicatePapers` (deduplicator.js, lines 195-214): first
occurrence of each id wins; later occurrences are reported as
duplicates. -/
def deduplicatePapers (papers : List Paper) :
    List Paper × List DupInfo :=
  let r := papers.foldl dedupStep ([], [], [])
  (r.1, r.2.1)

/-- Replacement record built when an incoming paper is strictly newer
(deduplicator.js, lines 247-255): spread of the new paper, with
`categories: existing.categories || newPaper.categories` and
`tags: {auto: newPaper.tags?.auto || newPaper.categories || [],
manual: existing.tags?.manual || []}`. -/
def mergeRecord (existing newPaper : Paper) : Paper :=
  { newPaper with
    categories := jsOrArr existing.categories newPaper.categories
    tags := some
      { auto := some ((jsOrArr (newPaper.tags.bind Tags.auto)
                         newPaper.categories).getD [])
        manual := some ((existing.tags.bind Tags.manual).getD []) } }

/-- One step of the merge loop over the incoming batch
(deduplicator.js, lines 234-259), acting on (map, added, updated). -/
def mergeStep (acc : List (String × Paper) × Nat × Nat) (newPaper : Paper) :
    List (String × Paper) × Nat × Nat :=
  match getKey acc.1 newPaper.id with
  | none => (setKey acc.1 newPaper.id newPaper, acc.2.1 + 1, acc.2.2)
  | some existing =>
      if recencyVal existing < recencyVal newPaper then
        (setKey acc.1 newPaper.id (mergeRecord existing newPaper),
         acc.2.1, acc.2.2 + 1)
      else
        acc

/-- Result of `mergePapers`. -/
structure MergeResult where
  merged : List Paper
  added : Nat
  updated : Nat
deriving DecidableEq, Repr

/-- The first loop of `mergePapers` (deduplicator.js, lines 226-228):
`for (const paper of existingPapers) paperMap.set(paper.id, paper)`. -/
def keyById (ps : List Paper) : List (String × Paper) :=
  ps.foldl (fun m p => setKey m p.id p) []

/-- `mergePapers` (deduplicator.js, lines 222-266): key the existing
papers by id in a `Map`, fold the incoming batch with `mergeStep`, and
return the map's values in insertion order together with the counters. -/
def mergePapers (existingPapers newPapers : List Paper) : MergeResult :=
  let r := newPapers.foldl mergeStep (keyById existingPapers, 0, 0)
  ⟨r.1.map Prod.snd, r.2.1, r.2.2⟩

/-! ### Association-list facts about the embedded JS `Map` -/

/-- The keys of an embedded map. -/
def keysOf {κ α : Type} (m : List (κ × α)) : List κ :=
  m.map Prod.fst

/-- A map whose keys are pairwise distinct; every map built by `setKey`
from the empty map satisfies this, as a JS `Map` holds one entry per key. -/
def NodupKeys {κ α : Type} (m : List (κ × α)) : Prop :=
  (keysOf m).Nodup

theorem getKey_nil {κ α : Type} [DecidableEq κ] (k : κ) :
    getKey ([] : List (κ × α)) k = none := rfl

theorem getKey_cons {κ α : Type} [DecidableEq κ] (kv : κ × α)
    (m : List (κ × α)) (k : κ) :
    getKey (kv :: m) k = if kv.1 = k then some kv.2 else getKey m k := by
  by_cases h : kv.1 = k <;> simp [getKey, List.find?_cons, h]

theorem getKey_setKey_self {κ α : Type} [DecidableEq κ]
    (m : List (κ × α)) (k : κ) (v : α) :
    getKey (setKey m k v) k = some v := by
  induction m with
  | nil => simp [setKey, getKey_cons]
  | cons kv m ih =>
      by_cases h : kv.1 = k
      · simp [setKey, h, getKey_cons]
      · simp [setKey, h, getKey_cons, ih]

theorem getKey_setKey_ne {κ α : Type} [DecidableEq κ]
    (m : List (κ × α)) (k k' : κ) (v : α) (hne : k' ≠ k) :
    getKey (setKey m k v) k' = getKey m k' := by
  induction m with
  | nil =>
      have hnk : ¬ k = k' := fun hh => hne hh.symm
      simp [setKey, getKey_cons, getKey_nil, hnk]
  | cons kv m ih =>
      by_cases h : kv.1 = k
      · have hkv : ¬ kv.1 = k' := by
          rw [h]; exact fun hh => hne hh.symm
        have hnk : ¬ k = k' := fun hh => hne hh.symm
        simp [setKey, h, getKey_cons, hkv, hnk]
      · by_cases h' : kv.1 = k' <;>
          simp [setKey, h, getKey_cons, h', ih, hne]

theorem mem_keysOf_setKey {κ α : Type} [DecidableEq κ]
    (m : List (κ × α)) (k k' : κ) (v : α) :
    k' ∈ keysOf (setKey m k v) ↔ k' ∈ keysOf m ∨ k' = k := by
  induction m with
  | nil => simp [setKey, keysOf]
  | cons kv m ih =>
      by_cases h : kv.1 = k
      · subst h
        simp only [keysOf, List.map_cons, List.mem_cons]
        simp [setKey, keysOf]
        tauto
      · simp only [keysOf, List.map_cons, List.mem_cons] at ih ⊢
        simp only [setKey, if_neg h, List.map_cons, List.mem_cons, ih]
        tauto

theorem nodupKeys_setKey {κ α : Type} [DecidableEq κ]
    (m : List (κ × α)) (k : κ) (v : α) (h : NodupKeys m) :
    NodupKeys (setKey m k v) := by
  induction m with
  | nil => simp [setKey, NodupKeys, keysOf]
  | cons kv m ih =>
      by_cases hk : kv.1 = k
      · subst hk
        simpa [setKey, NodupKeys, keysOf] using h
      · simp only [NodupKeys, keysOf, List.map_cons, List.nodup_cons] at h
        have h1 := h.1
        have h2 := ih h.2
        simp only [setKey, if_neg hk, NodupKeys, keysOf, List.map_cons,
          List.nodup_cons]
        refine ⟨?_, h2⟩
        intro hmem
        rcases (mem_keysOf_setKey m k kv.1 v).1 hmem with hm | hm
        · exact h1 hm
        · exact hk hm

theorem getKey_mem {κ α : Type} [DecidableEq κ]
    (m : List (κ × α)) (k : κ) (v : α) (h : getKey m k = some v) :
    (k, v) ∈ m := by
  induction m with
  | nil => simp [getKey_nil] at h
  | cons kv m ih =>
      rw [getKey_cons] at h
      by_cases hk : kv.1 = k
      · rw [if_pos hk] at h
        injection h with h2
        have hkv : (k, v) = kv := by
          cases kv
          simp only [Prod.mk.injEq]
          exact ⟨hk.symm, h2.symm⟩
        rw [hkv]
        exact List.mem_cons_self _ _
      · rw [if_neg hk] at h
        exact List.mem_cons_of_mem _ (ih h)

theorem getKey_isSome_of_mem_keys {κ α : Type} [DecidableEq κ]
    (m : List (κ × α)) (k : κ) (h : k ∈ keysOf m) :
    ∃ v, getKey m k = some v := by
  induction m with
  | nil => simp [keysOf] at h
  | cons kv m ih =>
      rw [getKey_cons]
      by_cases hk : kv.1 = k
      · exact ⟨kv.2, if_pos hk⟩
      · rw [if_neg hk]
        apply ih
        simp only [keysOf, List.map_cons, List.mem_cons] at h
        rcases h with h | h
        · exact absurd h.symm hk
        · exact h

theorem setKey_of_not_mem_keys {κ α : Type} [DecidableEq κ]
    (m : List (κ × α)) (k : κ) (v : α) (h : k ∉ keysOf m) :
    setKey m k v = m ++ [(k, v)] := by
  induction m with
  | nil => rfl
  | cons kv m ih =>
      simp only [keysOf, List.map_cons, List.mem_cons] at h
      push_neg at h
      have h1 : ¬ kv.1 = k := fun hh => h.1 hh.symm
      have h2 := ih (by simpa [keysOf] using h.2)
      simp [setKey, h1, h2]

/-- In the merge map every entry is keyed by the id of its paper. -/
def IdKeys (m : List (String × Paper)) : Prop :=
  ∀ kv ∈ m, kv.1 = kv.2.id

theorem idKeys_setKey (m : List (String × Paper)) (v : Paper)
    (h : IdKeys m) : IdKeys (setKey m v.id v) := by
  induction m with
  | nil =>
      intro kv hkv
      simp [setKey] at hkv
      simp [hkv]
  | cons kv0 m ih =>
      by_cases hk : kv0.1 = v.id
      · intro kv hkv
        simp only [setKey, if_pos hk, List.mem_cons] at hkv
        rcases hkv with h1 | h1
        · simp [h1]
        · exact h kv (List.mem_cons_of_mem _ h1)
      · intro kv hkv
        simp only [setKey, if_neg hk, List.mem_cons] at hkv
        rcases hkv with h1 | h1
        · rw [h1]; exact h kv0 (List.mem_cons_self _ _)
        · exact ih (fun kv' hkv' => h kv' (List.mem_cons_of_mem _ hkv')) kv h1

/-- The map component of one merge-loop step; `mergeStep` updates the
counters alongside exactly this map transformation. -/
def mergeStepM (m : List (String × Paper)) (newPaper : Paper) :
    List (String × Paper) :=
  match getKey m newPaper.id with
  | none => setKey m newPaper.id newPaper
  | some existing =>
      if recencyVal existing < recencyVal newPaper then
        setKey m newPaper.id (mergeRecord existing newPaper)
      else
        m

theorem mergeStep_fst (acc : List (String × Paper) × Nat × Nat)
    (np : Paper) : (mergeStep acc np).1 = mergeStepM acc.1 np := by
  unfold mergeStep mergeStepM
  cases getKey acc.1 np.id with
  | none => rfl
  | some existing =>
      by_cases h : recencyVal existing < recencyVal np <;> simp [h]

theorem foldl_mergeStep_fst (l : List Paper)
    (acc : List (String × Paper) × Nat × Nat) :
    (l.foldl mergeStep acc).1 = l.foldl mergeStepM acc.1 := by
  induction l generalizing acc with
  | nil => rfl
  | cons np l ih => rw [List.foldl_cons, List.foldl_cons, ih, mergeStep_fst]

theorem mergeRecord_id (existing np : Paper) :
    (mergeRecord existing np).id = np.id := rfl

theorem recencyVal_mergeRecord (existing np : Paper) :
    recencyVal (mergeRecord existing np) = recencyVal np := rfl

theorem nodupKeys_mergeStepM (m : List (String × Paper)) (np : Paper)
    (h : NodupKeys m) : NodupKeys (mergeStepM m np) := by
  unfold mergeStepM
  cases getKey m np.id with
  | none => exact nodupKeys_setKey m np.id np h
  | some existing =>
      by_cases hlt : recencyVal existing < recencyVal np
      · simpa [hlt] using nodupKeys_setKey m np.id (mergeRecord existing np) h
      · simpa [hlt] using h

theorem idKeys_mergeStepM (m : List (String × Paper)) (np : Paper)
    (h : IdKeys m) : IdKeys (mergeStepM m np) := by
  unfold mergeStepM
  cases getKey m np.id with
  | none => exact idKeys_setKey m np h
  | some existing =>
      by_cases hlt : recencyVal existing < recencyVal np
      · have := idKeys_setKey m (mergeRecord existing np) h
        rw [mergeRecord_id] at this
        simpa [hlt] using this
      · simpa [hlt] using h

theorem nodupKeys_foldl_mergeStepM (l : List Paper)
    (m : List (String × Paper)) (h : NodupKeys m) :
    NodupKeys (l.foldl mergeStepM m) := by
  induction l generalizing m with
  | nil => exact h
  | cons np l ih => exact ih _ (nodupKeys_mergeStepM m np h)

theorem idKeys_foldl_mergeStepM (l : List Paper)
    (m : List (String × Paper)) (h : IdKeys m) :
    IdKeys (l.foldl mergeStepM m) := by
  induction l generalizing m with
  | nil => exact h
  | cons np l ih => exact ih _ (idKeys_mergeStepM m np h)

theorem nodupKeys_keyById (ps : List Paper) : NodupKeys (keyById ps) := by
  have aux : ∀ (l : List Paper) (m : List (String × Paper)), NodupKeys m →
      NodupKeys (l.foldl (fun m p => setKey m p.id p) m) := by
    intro l
    induction l with
    | nil => intro m h; exact h
    | cons p l ih => intro m h; exact ih _ (nodupKeys_setKey m p.id p h)
  exact aux ps [] (by simp [NodupKeys, keysOf])

theorem idKeys_keyById (ps : List Paper) : IdKeys (keyById ps) := by
  have aux : ∀ (l : List Paper) (m : List (String × Paper)), IdKeys m →
      IdKeys (l.foldl (fun m p => setKey m p.id p) m) := by
    intro l
    induction l with
    | nil => intro m h; exact h
    | cons p l ih => intro m h; exact ih _ (idKeys_setKey m p h)
  exact aux ps [] (by intro kv hkv; simp at hkv)

theorem getKey_mergeStepM_mono (m : List (String × Paper)) (np : Paper)
    (k : String) (e : Paper) (h : getKey m k = some e) :
    ∃ e', getKey (mergeStepM m np) k = some e' ∧
      recencyVal e ≤ recencyVal e' := by
  unfold mergeStepM
  cases hget : getKey m np.id with
  | none =>
      have hne : k ≠ np.id := by
        intro hk; rw [hk, hget] at h; exact Option.noConfusion h
      exact ⟨e, by rw [getKey_setKey_ne m np.id k np hne, h], le_refl _⟩
  | some existing =>
      by_cases hlt : recencyVal existing < recencyVal np
      · by_cases hk : k = np.id
        · subst hk
          rw [h] at hget
          injection hget with hge
          subst hge
          refine ⟨mergeRecord e np, ?_, ?_⟩
          · simp [hlt, getKey_setKey_self]
          · rw [recencyVal_mergeRecord]
            exact le_of_lt hlt
        · exact ⟨e, by simp [hlt, getKey_setKey_ne m np.id k _ hk, h],
            le_refl _⟩
      · exact ⟨e, by simp [hlt, h], le_refl _⟩

theorem getKey_foldl_mergeStepM_mono (l : List Paper)
    (m : List (String × Paper)) (k : String) (e : Paper)
    (h : getKey m k = some e) :
    ∃ e', getKey (l.foldl mergeStepM m) k = some e' ∧
      recencyVal e ≤ recencyVal e' := by
  induction l generalizing m e with
  | nil => exact ⟨e, h, le_refl _⟩
  | cons np l ih =>
      obtain ⟨e1, he1, hle1⟩ := getKey_mergeStepM_mono m np k e h
      obtain ⟨e2, he2, hle2⟩ := ih (mergeStepM m np) e1 he1
      exact ⟨e2, he2, le_trans hle1 hle2⟩

theorem getKey_mergeStepM_self (m : List (String × Paper)) (np : Paper) :
    ∃ e, getKey (mergeStepM m np) np.id = some e ∧
      recencyVal np ≤ recencyVal e := by
  unfold mergeStepM
  cases hget : getKey m np.id with
  | none => exact ⟨np, getKey_setKey_self m np.id np, le_refl _⟩
  | some existing =>
      by_cases hlt : recencyVal existing < recencyVal np
      · exact ⟨mergeRecord existing np,
          by simp [hlt, getKey_setKey_self],
          by rw [recencyVal_mergeRecord]⟩
      · exact ⟨existing, by simp [hlt, hget], Nat.le_of_not_lt hlt⟩

theorem getKey_foldl_mergeStepM_of_mem (l : List Paper)
    (m : List (String × Paper)) (np : Paper) (hmem : np ∈ l) :
    ∃ e, getKey (l.foldl mergeStepM m) np.id = some e ∧
      recencyVal np ≤ recencyVal e := by
  induction l generalizing m with
  | nil => cases hmem
  | cons q l ih =>
      rcases List.mem_cons.1 hmem with hq | hq
      · subst hq
        obtain ⟨e, he, hle⟩ := getKey_mergeStepM_self m np
        obtain ⟨e', he', hle'⟩ :=
          getKey_foldl_mergeStepM_mono l (mergeStepM m np) np.id e he
        exact ⟨e', he', le_trans hle hle'⟩
      · exact ih (mergeStepM m q) hq

theorem mergeStep_noop (acc : List (String × Paper) × Nat × Nat)
    (np : Paper) (e : Paper) (hget : getKey acc.1 np.id = some e)
    (hle : ¬ recencyVal e < recencyVal np) : mergeStep acc np = acc := by
  unfold mergeStep
  rw [hget]
  simp [hle]

theorem foldl_mergeStep_noop (l : List Paper)
    (m : List (String × Paper)) (a u : Nat)
    (h : ∀ np ∈ l, ∃ e, getKey m np.id = some e ∧
      ¬ recencyVal e < recencyVal np) :
    l.foldl mergeStep (m, a, u) = (m, a, u) := by
  induction l with
  | nil => rfl
  | cons np l ih =>
      obtain ⟨e, hget, hle⟩ := h np (List.mem_cons_self _ _)
      rw [List.foldl_cons, mergeStep_noop (m, a, u) np e hget hle]
      exact ih (fun q hq => h q (List.mem_cons_of_mem _ hq))

theorem keyById_of_vals (m : List (String × Paper)) (hnd : NodupKeys m)
    (hid : IdKeys m) : keyById (m.map Prod.snd) = m := by
  have aux : ∀ (m' acc : List (String × Paper)),
      NodupKeys (acc ++ m') → IdKeys m' →
      (m'.map Prod.snd).foldl (fun mm p => setKey mm p.id p) acc =
        acc ++ m' := by
    intro m'
    induction m' with
    | nil => intro acc _ _; simp
    | cons kv m' ih =>
        intro acc hnd' hid'
        have hk : kv.2.id = kv.1 := (hid' kv (List.mem_cons_self _ _)).symm
        have hnotin : kv.1 ∉ keysOf acc := by
          have h0 : (keysOf acc ++ kv.1 :: keysOf m').Nodup := by
            simpa [NodupKeys, keysOf] using hnd'
          intro hmem
          rcases List.nodup_append.mp h0 with ⟨-, -, hdisj⟩
          exact hdisj hmem (List.mem_cons_self _ _)
        rw [List.map_cons, List.foldl_cons, hk,
          setKey_of_not_mem_keys acc kv.1 kv.2 hnotin]
        have heq : (acc ++ [(kv.1, kv.2)]) ++ m' = acc ++ kv :: m' := by
          simp
        have hres := ih (acc ++ [(kv.1, kv.2)])
          (by rw [show acc ++ [(kv.1, kv.2)] ++ m' = acc ++ kv :: m' from heq]
              exact hnd')
          (fun kv' hkv' => hid' kv' (List.mem_cons_of_mem _ hkv'))
        rw [hres]
        simp
  have := aux m [] (by simpa using hnd) hid
  simpa [keyById] using this

theorem mergePapers_merged_eq (a b : List Paper) :
    (mergePapers a b).merged =
      (b.foldl mergeStepM (keyById a)).map Prod.snd := by
  show ((b.foldl mergeStep (keyById a, 0, 0)).1).map Prod.snd = _
  rw [foldl_mergeStep_fst]

/-- C1.  Merge is idempotent: merging the same incoming batch a second
time into the result of the first merge leaves the merged sequence
unchanged and reports `added = 0` and `updated = 0`. -/
theorem mergePapers_idempotent (existing incoming : List Paper) :
    (mergePapers (mergePapers existing incoming).merged incoming).merged
        = (mergePapers existing incoming).merged ∧
    (mergePapers (mergePapers existing incoming).merged incoming).added = 0 ∧
    (mergePapers (mergePapers existing incoming).merged incoming).updated
        = 0 := by
  set m1 := incoming.foldl mergeStepM (keyById existing) with hm1
  have hnd : NodupKeys m1 :=
    nodupKeys_foldl_mergeStepM _ _ (nodupKeys_keyById _)
  have hid : IdKeys m1 :=
    idKeys_foldl_mergeStepM _ _ (idKeys_keyById _)
  have hM : (mergePapers existing incoming).merged = m1.map Prod.snd :=
    mergePapers_merged_eq existing incoming
  have hrebuild : keyById (m1.map Prod.snd) = m1 :=
    keyById_of_vals m1 hnd hid
  have hno : ∀ np ∈ incoming, ∃ e, getKey m1 np.id = some e ∧
      ¬ recencyVal e < recencyVal np := by
    intro np hnp
    obtain ⟨e, he, hle⟩ :=
      getKey_foldl_mergeStepM_of_mem incoming (keyById existing) np hnp
    exact ⟨e, he, Nat.not_lt.mpr hle⟩
  have hfold : incoming.foldl mergeStep
      (keyById (mergePapers existing incoming).merged, 0, 0) = (m1, 0, 0) := by
    rw [hM, hrebuild]
    exact foldl_mergeStep_noop incoming m1 0 0 hno
  refine ⟨?_, ?_, ?_⟩
  · show (incoming.foldl mergeStep
        (keyById (mergePapers existing incoming).merged, 0, 0)).1.map
          Prod.snd = _
    rw [hfold, hM]
  · show (incoming.foldl mergeStep
        (keyById (mergePapers existing incoming).merged, 0, 0)).2.1 = 0
    rw [hfold]
  · show (incoming.foldl mergeStep
        (keyById (mergePapers existing incoming).merged, 0, 0)).2.2 = 0
    rw [hfold]

theorem mem_keysOf_of_getKey {κ α : Type} [DecidableEq κ]
    (m : List (κ × α)) (k : κ) (v : α) (h : getKey m k = some v) :
    k ∈ keysOf m :=
  List.mem_map.mpr ⟨(k, v), getKey_mem m k v h, rfl⟩

theorem getKey_eq_none {κ α : Type} [DecidableEq κ]
    (m : List (κ × α)) (k : κ) (h : k ∉ keysOf m) : getKey m k = none := by
  cases hg : getKey m k with
  | none => rfl
  | some v => exact absurd (mem_keysOf_of_getKey m k v hg) h

theorem id_of_getKey (m : List (String × Paper)) (hid : IdKeys m)
    (k : String) (e : Paper) (h : getKey m k = some e) : e.id = k :=
  (hid (k, e) (getKey_mem m k e h)).symm

theorem mem_vals_of_getKey {κ α : Type} [DecidableEq κ]
    (m : List (κ × α)) (k : κ) (v : α) (h : getKey m k = some v) :
    v ∈ m.map Prod.snd :=
  List.mem_map.mpr ⟨(k, v), getKey_mem m k v h, rfl⟩

theorem keysOf_eq_ids (m : List (String × Paper)) (hid : IdKeys m) :
    keysOf m = (m.map Prod.snd).map Paper.id := by
  simp only [keysOf, List.map_map]
  exact List.map_congr_left (fun kv hkv => hid kv hkv)

theorem vals_id_unique (m : List (String × Paper)) (hnd : NodupKeys m)
    (hid : IdKeys m) (k : String) (e : Paper) (hg : getKey m k = some e) :
    ∀ p ∈ m.map Prod.snd, p.id = k → p = e := by
  intro p hp hpk
  have hnd' : ((m.map Prod.snd).map Paper.id).Nodup := by
    rw [← keysOf_eq_ids m hid]; exact hnd
  have he : e ∈ m.map Prod.snd := mem_vals_of_getKey m k e hg
  have heid : e.id = k := id_of_getKey m hid k e hg
  exact List.inj_on_of_nodup_map hnd' hp he (by rw [hpk, heid])

theorem mem_keysOf_of_mem_vals (m : List (String × Paper))
    (hid : IdKeys m) (p : Paper) (hp : p ∈ m.map Prod.snd) :
    p.id ∈ keysOf m := by
  rw [keysOf_eq_ids m hid]
  exact List.mem_map_of_mem _ hp

theorem vals_setKey_of_getKey (m : List (String × Paper)) (k : String)
    (v e : Paper) (hnd : NodupKeys m) (hid : IdKeys m)
    (hg : getKey m k = some e) :
    (setKey m k v).map Prod.snd =
      (m.map Prod.snd).map (fun p => if p.id = k then v else p) := by
  induction m with
  | nil => simp [getKey_nil] at hg
  | cons kv m ih =>
      rw [getKey_cons] at hg
      by_cases hk : kv.1 = k
      · rw [if_pos hk] at hg
        injection hg with hge
        have hkvid : kv.2.id = k := by
          rw [← hk]
          exact (hid kv (List.mem_cons_self _ _)).symm
        have hrest : ∀ p ∈ m.map Prod.snd, ¬ p.id = k := by
          intro p hp hpk
          have hnotin : kv.1 ∉ keysOf m := by
            have := hnd
            simp only [NodupKeys, keysOf, List.map_cons,
              List.nodup_cons] at this
            exact this.1
          have : p.id ∈ keysOf m := mem_keysOf_of_mem_vals m
            (fun kv' hkv' => hid kv' (List.mem_cons_of_mem _ hkv')) p hp
          rw [hpk, ← hk] at this
          exact hnotin this
        simp only [setKey, if_pos hk, List.map_cons, if_pos hkvid]
        have : (m.map Prod.snd).map (fun p => if p.id = k then v else p)
            = m.map Prod.snd := by
          rw [List.map_eq_map_iff.mpr]
          · exact (List.map_id _)
          · intro p hp
            simp [hrest p hp]
        rw [this]
      · rw [if_neg hk] at hg
        have hkvne : ¬ kv.2.id = k := by
          rw [show kv.2.id = kv.1 from (hid kv (List.mem_cons_self _ _)).symm]
          exact hk
        have hnd' : NodupKeys m := by
          have := hnd
          simp only [NodupKeys, keysOf, List.map_cons, List.nodup_cons] at this
          exact this.2
        have hid' : IdKeys m := fun kv' hkv' =>
          hid kv' (List.mem_cons_of_mem _ hkv')
        simp only [setKey, if_neg hk, List.map_cons, if_neg hkvne,
          ih hnd' hid' hg]

/-- The merged-sequence shape the specification describes: the existing
records in their original relative order — each replaced in place by its
updated version when a strictly newer incoming record with the same id
exists — followed by the genuinely new incoming records in batch order. -/
def mergeSpec (existingPapers newPapers : List Paper) : List Paper :=
  existingPapers.map (fun p =>
    match newPapers.find? (fun np => np.id = p.id) with
    | some np =>
        if recencyVal p < recencyVal np then mergeRecord p np else p
    | none => p) ++
  newPapers.filter
    (fun np => !(existingPapers.any (fun p => p.id = np.id)))

theorem mergeSpec_cons_fresh (vals : List Paper) (np : Paper)
    (l : List Paper) (hvals : ∀ p ∈ vals, ¬ p.id = np.id)
    (hl : np.id ∉ l.map Paper.id) :
    mergeSpec vals (np :: l) = mergeSpec (vals ++ [np]) l := by
  unfold mergeSpec
  have hmap : vals.map (fun p =>
      match (np :: l).find? (fun q => q.id = p.id) with
      | some q => if recencyVal p < recencyVal q then mergeRecord p q else p
      | none => p) =
      vals.map (fun p =>
      match l.find? (fun q => q.id = p.id) with
      | some q => if recencyVal p < recencyVal q then mergeRecord p q else p
      | none => p) := by
    apply List.map_congr_left
    intro p hp
    rw [List.find?_cons_of_neg]
    simp only [decide_eq_true_eq]
    exact fun h => hvals p hp h.symm
  have hnp : l.find? (fun q => q.id = np.id) = none := by
    rw [List.find?_eq_none]
    intro x hx
    simp only [decide_eq_true_eq]
    intro hxid
    exact hl (hxid ▸ List.mem_map_of_mem Paper.id hx)
  have hkeep : (vals.any (fun p => p.id = np.id)) = false := by
    rw [List.any_eq_false]
    intro p hp
    simp only [decide_eq_true_eq]
    exact hvals p hp
  have hfilter : l.filter
      (fun q => !((vals ++ [np]).any (fun p => p.id = q.id))) =
      l.filter (fun q => !(vals.any (fun p => p.id = q.id))) := by
    apply List.filter_congr
    intro q hq
    have : (np.id = q.id) = False := by
      simp only [eq_iff_iff, iff_false]
      intro hid
      exact hl (hid ▸ List.mem_map_of_mem Paper.id hq)
    simp [List.any_append, this]
  rw [hmap, hfilter, List.map_append, List.filter_cons_of_pos (by simp [hkeep]),
    List.map_cons, List.map_nil, hnp]
  simp

theorem mergeSpec_cons_stale (vals : List Paper) (np ex : Paper)
    (l : List Paper) (hex : ex ∈ vals) (hexid : ex.id = np.id)
    (huniq : ∀ p ∈ vals, p.id = np.id → p = ex)
    (hstale : ¬ recencyVal ex < recencyVal np)
    (hl : np.id ∉ l.map Paper.id) :
    mergeSpec vals (np :: l) = mergeSpec vals l := by
  unfold mergeSpec
  have hmap : vals.map (fun p =>
      match (np :: l).find? (fun q => q.id = p.id) with
      | some q => if recencyVal p < recencyVal q then mergeRecord p q else p
      | none => p) =
      vals.map (fun p =>
      match l.find? (fun q => q.id = p.id) with
      | some q => if recencyVal p < recencyVal q then mergeRecord p q else p
      | none => p) := by
    apply List.map_congr_left
    intro p hp
    by_cases hpid : p.id = np.id
    · have hpex : p = ex := huniq p hp hpid
      rw [List.find?_cons_of_pos _ (by simp [hpid])]
      have hnone : l.find? (fun q => q.id = p.id) = none := by
        rw [List.find?_eq_none]
        intro x hx
        simp only [decide_eq_true_eq]
        intro hxid
        exact hl (by
          rw [← hpid, ← hxid]
          exact List.mem_map_of_mem Paper.id hx)
      rw [hnone, hpex]
      simp [hstale]
    · rw [List.find?_cons_of_neg _ (by
        simp only [decide_eq_true_eq]
        exact fun h => hpid h.symm)]
  have hdrop : (vals.any (fun p => p.id = np.id)) = true := by
    rw [List.any_eq_true]
    exact ⟨ex, hex, by simp [hexid]⟩
  rw [hmap, List.filter_cons_of_neg (by simp [hdrop])]

theorem mergeSpec_cons_replace (vals : List Paper) (np ex : Paper)
    (l : List Paper) (hex : ex ∈ vals) (hexid : ex.id = np.id)
    (huniq : ∀ p ∈ vals, p.id = np.id → p = ex)
    (hnewer : recencyVal ex < recencyVal np)
    (hl : np.id ∉ l.map Paper.id) :
    mergeSpec vals (np :: l) =
      mergeSpec
        (vals.map (fun p => if p.id = np.id then mergeRecord ex np else p))
        l := by
  unfold mergeSpec
  have hmap : vals.map (fun p =>
      match (np :: l).find? (fun q => q.id = p.id) with
      | some q => if recencyVal p < recencyVal q then mergeRecord p q else p
      | none => p) =
      (vals.map (fun p => if p.id = np.id then mergeRecord ex np else p)).map
      (fun p =>
      match l.find? (fun q => q.id = p.id) with
      | some q => if recencyVal p < recencyVal q then mergeRecord p q else p
      | none => p) := by
    rw [List.map_map]
    apply List.map_congr_left
    intro p hp
    by_cases hpid : p.id = np.id
    · have hpex : p = ex := huniq p hp hpid
      have hnone : l.find? (fun q => q.id = (mergeRecord ex np).id) = none := by
        rw [List.find?_eq_none]
        intro x hx
        simp only [decide_eq_true_eq, mergeRecord_id]
        intro hxid
        exact hl (hxid ▸ List.mem_map_of_mem Paper.id hx)
      simp only [Function.comp_apply, if_pos hpid]
      rw [List.find?_cons_of_pos _ (by simp [hpid]), hpex, hnone]
      simp [hnewer]
    · simp only [Function.comp_apply, if_neg hpid]
      rw [List.find?_cons_of_neg _ (by
        simp only [decide_eq_true_eq]
        exact fun h => hpid h.symm)]
  have hdrop : (vals.any (fun p => p.id = np.id)) = true := by
    rw [List.any_eq_true]
    exact ⟨ex, hex, by simp [hexid]⟩
  have hfilter : l.filter (fun q =>
      !((vals.map (fun p => if p.id = np.id then mergeRecord ex np else p)).any
        (fun p => p.id = q.id))) =
      l.filter (fun q => !(vals.any (fun p => p.id = q.id))) := by
    apply List.filter_congr
    intro q _
    have hany : (vals.map
        (fun p => if p.id = np.id then mergeRecord ex np else p)).any
        (fun p => p.id = q.id) = vals.any (fun p => p.id = q.id) := by
      rw [List.any_map]
      congr 1
      funext p
      by_cases hpid : p.id = np.id
      · simp [Function.comp, hpid, mergeRecord_id]
      · simp [Function.comp, hpid]
    rw [hany]
  rw [hmap, List.filter_cons_of_neg (by simp [hdrop]), hfilter]

theorem foldl_mergeStepM_spec (l : List Paper) (m : List (String × Paper))
    (hnd : NodupKeys m) (hid : IdKeys m) (hl : (l.map Paper.id).Nodup) :
    (l.foldl mergeStepM m).map Prod.snd = mergeSpec (m.map Prod.snd) l := by
  induction l generalizing m with
  | nil => simp [mergeSpec]
  | cons np l ih =>
      have hl' : np.id ∉ l.map Paper.id ∧ (l.map Paper.id).Nodup := by
        rw [List.map_cons, List.nodup_cons] at hl
        exact hl
      rw [List.foldl_cons]
      cases hget : getKey m np.id with
      | none =>
          have hstep : mergeStepM m np = setKey m np.id np := by
            unfold mergeStepM
            rw [hget]
          have hfresh : np.id ∉ keysOf m := by
            intro hmem
            obtain ⟨v, hv⟩ := getKey_isSome_of_mem_keys m np.id hmem
            rw [hget] at hv
            exact Option.noConfusion hv
          have hvals : ∀ p ∈ m.map Prod.snd, ¬ p.id = np.id := by
            intro p hp hpid
            exact hfresh (hpid ▸ mem_keysOf_of_mem_vals m hid p hp)
          rw [hstep,
            ih (setKey m np.id np) (nodupKeys_setKey m _ _ hnd)
              (idKeys_setKey m np hid) hl'.2,
            setKey_of_not_mem_keys m np.id np hfresh,
            List.map_append]
          exact (mergeSpec_cons_fresh (m.map Prod.snd) np l hvals hl'.1).symm
      | some ex =>
          have hexid : ex.id = np.id := id_of_getKey m hid np.id ex hget
          have hex : ex ∈ m.map Prod.snd := mem_vals_of_getKey m np.id ex hget
          have huniq : ∀ p ∈ m.map Prod.snd, p.id = np.id → p = ex :=
            vals_id_unique m hnd hid np.id ex hget
          by_cases hlt : recencyVal ex < recencyVal np
          · have hstep : mergeStepM m np =
                setKey m np.id (mergeRecord ex np) := by
              unfold mergeStepM
              rw [hget]
              simp [hlt]
            rw [hstep,
              ih (setKey m np.id (mergeRecord ex np))
                (nodupKeys_setKey m _ _ hnd)
                (by
                  have := idKeys_setKey m (mergeRecord ex np) hid
                  rwa [mergeRecord_id] at this)
                hl'.2,
              vals_setKey_of_getKey m np.id (mergeRecord ex np) ex hnd hid
                hget]
            exact (mergeSpec_cons_replace (m.map Prod.snd) np ex l hex hexid
              huniq hlt hl'.1).symm
          · have hstep : mergeStepM m np = m := by
              unfold mergeStepM
              rw [hget]
              simp [hlt]
            rw [hstep, ih m hnd hid hl'.2]
            exact (mergeSpec_cons_stale (m.map Prod.snd) np ex l hex hexid
              huniq hlt hl'.1).symm

theorem mergePapers_merged_spec (existing incoming : List Paper)
    (h1 : (existing.map Paper.id).Nodup)
    (h2 : (incoming.map Paper.id).Nodup) :
    (mergePapers existing incoming).merged = mergeSpec existing incoming := by
  rw [mergePapers_merged_eq]
  set m0 := existing.map (fun p => (p.id, p)) with hm0
  have hvals : m0.map Prod.snd = existing := by
    rw [hm0, List.map_map]
    exact List.map_id _
  have hnd0 : NodupKeys m0 := by
    have : keysOf m0 = existing.map Paper.id := by
      rw [hm0, keysOf, List.map_map]
      rfl
    rw [NodupKeys, this]
    exact h1
  have hid0 : IdKeys m0 := by
    intro kv hkv
    rw [hm0] at hkv
    obtain ⟨p, _, rfl⟩ := List.mem_map.mp hkv
    rfl
  have hkb : keyById existing = m0 := by
    have := keyById_of_vals m0 hnd0 hid0
    rwa [hvals] at this
  rw [hkb, foldl_mergeStepM_spec incoming m0 hnd0 hid0 h2, hvals]

/-- C10.  When the existing sequence and the incoming batch each have
pairwise-distinct ids, the merged output is exactly: the existing records
in their original relative order, each either unchanged or replaced in
place by its updated version, followed by the newly added incoming
records in the incoming batch's order (the shape `mergeSpec`). -/
theorem mergePapers_preserves_order (existing incoming : List Paper)
    (h1 : (existing.map Paper.id).Nodup)
    (h2 : (incoming.map Paper.id).Nodup) :
    (mergePapers existing incoming).merged = mergeSpec existing incoming :=
  mergePapers_merged_spec existing incoming h1 h2

/-- Sample records used to instantiate the merge-order theorem. -/
def samplePaperA : Paper :=
  { id := "2301.00001", title := "alpha", abstract := "a", authors := [],
    publishedDate := "2023-01-02T00:00:00Z", updatedDate := none,
    arxivUrl := none, categories := some ["agents"],
    tags := some { auto := some ["agents"], manual := some [] } }

/-- A strictly newer incoming revision of `samplePaperA`. -/
def samplePaperA2 : Paper :=
  { id := "2301.00001", title := "alpha v2", abstract := "a2", authors := [],
    publishedDate := "2023-01-02T00:00:00Z",
    updatedDate := some "2023-05-01T00:00:00Z",
    arxivUrl := none, categories := some ["reasoning"],
    tags := some { auto := some ["reasoning"], manual := some [] } }

/-- An unrelated incoming record. -/
def samplePaperB : Paper :=
  { id := "2301.00002", title := "beta", abstract := "b", authors := [],
    publishedDate := "2023-02-03T00:00:00Z", updatedDate := none,
    arxivUrl := none, categories := some [], tags := none }

theorem mergePapers_preserves_order_witness :
    (([samplePaperA].map Paper.id).Nodup ∧
      ([samplePaperA2, samplePaperB].map Paper.id).Nodup) ∧
    (mergePapers [samplePaperA] [samplePaperA2, samplePaperB]).merged =
      mergeSpec [samplePaperA] [samplePaperA2, samplePaperB] :=
  ⟨⟨by decide, by decide⟩,
    mergePapers_preserves_order [samplePaperA] [samplePaperA2, samplePaperB]
      (by decide) (by decide)⟩

theorem find?_id_eq_of_nodup (l : List Paper) (n : Paper) (x : String)
    (hl : (l.map Paper.id).Nodup) (hn : n ∈ l) (hx : n.id = x) :
    l.find? (fun q => q.id = x) = some n := by
  induction l with
  | nil => cases hn
  | cons q l ih =>
      rw [List.map_cons, List.nodup_cons] at hl
      by_cases hq : q.id = x
      · rw [List.find?_cons_of_pos _ (by simp [hq])]
        rcases List.mem_cons.1 hn with h | h
        · rw [h]
        · exact absurd (by rw [hq, ← hx]; exact List.mem_map_of_mem _ h) hl.1
      · rw [List.find?_cons_of_neg _ (by simp [hq])]
        rcases List.mem_cons.1 hn with h | h
        · exact absurd (h ▸ hx) hq
        · exact ih hl.2 h

theorem mergeSpecFun_id (ns : List Paper) (p : Paper) :
    ((match ns.find? (fun np => np.id = p.id) with
      | some np =>
          if recencyVal p < recencyVal np then mergeRecord p np else p
      | none => p : Paper)).id = p.id := by
  cases hf : ns.find? (fun np => np.id = p.id) with
  | none => rfl
  | some np =>
      have hnp := List.find?_some hf
      simp only [decide_eq_true_eq] at hnp
      show (if recencyVal p < recencyVal np then
        mergeRecord p np else p).id = p.id
      by_cases hlt : recencyVal p < recencyVal np
      · rw [if_pos hlt, mergeRecord_id, hnp]
      · rw [if_neg hlt]

theorem merged_record_at (es ns : List Paper) (e n : Paper)
    (h1 : (es.map Paper.id).Nodup) (h2 : (ns.map Paper.id).Nodup)
    (he : e ∈ es) (hn : n ∈ ns) (hid : n.id = e.id)
    (hnewer : recencyVal e < recencyVal n) :
    (∃ r ∈ (mergePapers es ns).merged, r.id = e.id) ∧
    ∀ r ∈ (mergePapers es ns).merged, r.id = e.id →
      r = mergeRecord e n := by
  rw [mergePapers_merged_spec es ns h1 h2]
  have hfind : ns.find? (fun np => np.id = e.id) = some n :=
    find?_id_eq_of_nodup ns n e.id h2 hn hid
  have hfe : (match ns.find? (fun np => np.id = e.id) with
      | some np =>
          if recencyVal e < recencyVal np then mergeRecord e np else e
      | none => e) = mergeRecord e n := by
    rw [hfind]
    simp [hnewer]
  constructor
  · refine ⟨mergeRecord e n, ?_, by rw [mergeRecord_id, hid]⟩
    unfold mergeSpec
    refine List.mem_append.mpr (Or.inl ?_)
    exact List.mem_map.mpr ⟨e, he, hfe⟩
  · intro r hr hrid
    unfold mergeSpec at hr
    rcases List.mem_append.1 hr with hr | hr
    · obtain ⟨p, hp, hpr⟩ := List.mem_map.mp hr
      have hpid : p.id = e.id := by
        rw [← hrid, ← hpr]
        exact (mergeSpecFun_id ns p).symm
      have hpe : p = e := List.inj_on_of_nodup_map h1 hp he hpid
      rw [← hpr, hpe, hfe]
    · exfalso
      have hmem := List.mem_filter.1 hr
      have hany : es.any (fun p => p.id = r.id) = true := by
        rw [List.any_eq_true]
        exact ⟨e, he, by simp [hrid]⟩
      rw [hany] at hmem
      simp at hmem

/-- C2.  When an incoming record with freshly computed auto-labels is
strictly newer than an existing record with the same id that carries
non-empty manual tags, the merged record for that id keeps the existing
record's `tags.manual` and `categories` and takes the incoming record's
`tags.auto`. -/
theorem merge_preserves_manual_tags (es ns : List Paper) (e n : Paper)
    (h1 : (es.map Paper.id).Nodup) (h2 : (ns.map Paper.id).Nodup)
    (he : e ∈ es) (hn : n ∈ ns) (hid : n.id = e.id)
    (hnewer : recencyVal e < recencyVal n)
    (ecs : List String) (hecat : e.categories = some ecs)
    (et : Tags) (htag : e.tags = some et)
    (ms : List String) (hman : et.manual = some ms) (_hms : ms ≠ [])
    (nt : Tags) (hntag : n.tags = some nt)
    (auts : List String) (hauto : nt.auto = some auts) :
    (∃ r ∈ (mergePapers es ns).merged, r.id = e.id) ∧
    ∀ r ∈ (mergePapers es ns).merged, r.id = e.id →
      r.tags = some { auto := some auts, manual := some ms } ∧
      r.categories = some ecs := by
  obtain ⟨hex, hall⟩ := merged_record_at es ns e n h1 h2 he hn hid hnewer
  refine ⟨hex, ?_⟩
  intro r hr hrid
  rw [hall r hr hrid]
  constructor
  · show some _ = _
    rw [htag, hntag]
    simp [Option.bind, hman, hauto, jsOrArr]
  · show jsOrArr e.categories n.categories = some ecs
    rw [hecat]
    rfl

/-- Records instantiating the manual-tag preservation theorem:
a curated existing record and a strictly newer auto-labelled incoming
revision of it. -/
def sampleCurated : Paper :=
  { id := "2401.11111", title := "curated", abstract := "x", authors := [],
    publishedDate := "2024-01-05T00:00:00Z", updatedDate := none,
    arxivUrl := none, categories := some ["agents"],
    tags := some { auto := some ["agents"], manual := some ["agents"] } }

/-- The newer incoming revision of `sampleCurated`, auto-labelled as
`reasoning`. -/
def sampleCuratedV2 : Paper :=
  { id := "2401.11111", title := "curated", abstract := "x", authors := [],
    publishedDate := "2024-01-05T00:00:00Z",
    updatedDate := some "2024-03-01T00:00:00Z",
    arxivUrl := none, categories := some ["reasoning"],
    tags := some { auto := some ["reasoning"], manual := some [] } }

theorem merge_preserves_manual_tags_witness :
    (recencyVal sampleCurated < recencyVal sampleCuratedV2 ∧
      sampleCurated.categories = some ["agents"]) ∧
    ((∃ r ∈ (mergePapers [sampleCurated] [sampleCuratedV2]).merged,
        r.id = sampleCurated.id) ∧
      ∀ r ∈ (mergePapers [sampleCurated] [sampleCuratedV2]).merged,
        r.id = sampleCurated.id →
          r.tags = some { auto := some ["reasoning"],
                          manual := some ["agents"] } ∧
          r.categories = some ["agents"]) :=
  ⟨⟨by decide, by decide⟩,
    merge_preserves_manual_tags [sampleCurated] [sampleCuratedV2]
      sampleCurated sampleCuratedV2 (by decide) (by decide)
      (by decide) (by decide) (by decide) (by decide)
      ["agents"] (by decide)
      { auto := some ["agents"], manual := some ["agents"] } (by decide)
      ["agents"] (by decide) (by decide)
      { auto := some ["reasoning"], manual := some [] } (by decide)
      ["reasoning"] (by decide)⟩

/-- An existing record whose `categories` field is present but empty. -/
def sampleEmptyCats : Paper :=
  { id := "2401.22222", title := "old", abstract := "x", authors := [],
    publishedDate := "2020-01-01T00:00:00Z", updatedDate := none,
    arxivUrl := none, categories := some [], tags := none }

/-- A strictly newer incoming revision of `sampleEmptyCats` carrying a
category. -/
def sampleEmptyCatsV2 : Paper :=
  { id := "2401.22222", title := "new", abstract := "x", authors := [],
    publishedDate := "2020-01-01T00:00:00Z",
    updatedDate := some "2021-01-01T00:00:00Z",
    arxivUrl := none, categories := some ["agents"], tags := none }

/-- C4 counterexample.  The existing record's `categories` array is
empty and the incoming record with the same id is strictly newer, yet
the merged record keeps the empty existing array instead of taking the
incoming categories: a JS array is truthy even when empty, so
`existing.categories || newPaper.categories` never falls through to the
incoming side when the field is present. -/
theorem merge_categories_counterexample :
    sampleEmptyCatsV2.id = sampleEmptyCats.id ∧
    recencyVal sampleEmptyCats < recencyVal sampleEmptyCatsV2 ∧
    sampleEmptyCats.categories = some [] ∧
    sampleEmptyCatsV2.categories = some ["agents"] ∧
    (mergePapers [sampleEmptyCats] [sampleEmptyCatsV2]).merged.map
      Paper.categories = [some []] ∧
    ¬ ((mergePapers [sampleEmptyCats] [sampleEmptyCatsV2]).merged.map
      Paper.categories = [sampleEmptyCatsV2.categories]) := by
  refine ⟨rfl, by decide, rfl, rfl, by decide, by decide⟩

/-- C4 amended.  For a strictly newer incoming record with the same id,
the merged record's categories are the incoming record's categories
exactly when the existing record's `categories` field is absent
(`undefined`/`null`); whenever the existing record has a categories
array — even an empty one — it is preferred wholesale over the incoming
one. -/
theorem merge_categories_amended (es ns : List Paper) (e n : Paper)
    (h1 : (es.map Paper.id).Nodup) (h2 : (ns.map Paper.id).Nodup)
    (he : e ∈ es) (hn : n ∈ ns) (hid : n.id = e.id)
    (hnewer : recencyVal e < recencyVal n) :
    (∃ r ∈ (mergePapers es ns).merged, r.id = e.id) ∧
    ∀ r ∈ (mergePapers es ns).merged, r.id = e.id →
      (e.categories = none → r.categories = n.categories) ∧
      (∀ cs, e.categories = some cs → r.categories = some cs) := by
  obtain ⟨hex, hall⟩ := merged_record_at es ns e n h1 h2 he hn hid hnewer
  refine ⟨hex, ?_⟩
  intro r hr hrid
  rw [hall r hr hrid]
  constructor
  · intro hnone
    show jsOrArr e.categories n.categories = n.categories
    rw [hnone]
    rfl
  · intro cs hcs
    show jsOrArr e.categories n.categories = some cs
    rw [hcs]
    rfl

theorem merge_categories_amended_witness :
    (recencyVal sampleEmptyCats < recencyVal sampleEmptyCatsV2) ∧
    ((∃ r ∈ (mergePapers [sampleEmptyCats] [sampleEmptyCatsV2]).merged,
        r.id = sampleEmptyCats.id) ∧
      ∀ r ∈ (mergePapers [sampleEmptyCats] [sampleEmptyCatsV2]).merged,
        r.id = sampleEmptyCats.id →
          (sampleEmptyCats.categories = none →
            r.categories = sampleEmptyCatsV2.categories) ∧
          (∀ cs, sampleEmptyCats.categories = some cs →
            r.categories = some cs)) :=
  ⟨by decide,
    merge_categories_amended [sampleEmptyCats] [sampleEmptyCatsV2]
      sampleEmptyCats sampleEmptyCatsV2 (by decide) (by decide)
      (by decide) (by decide) (by decide) (by decide)⟩

/-! ### Stable sort modelling JS `Array.prototype.sort` -/

/-- Insertion step of the stable sort: keep `y` before the inserted
element `x` exactly when `pr y x` holds (for a key comparator, when `y`'s
key is strictly greater). -/
def insertBy {α : Type} (pr : α → α → Bool) (x : α) : List α → List α
  | [] => [x]
  | y :: ys => if pr y x then y :: insertBy pr x ys else x :: y :: ys

/-- Stable insertion sort modelling JS `Array.prototype.sort(cmp)`
(stable per the ECMAScript specification); `pr a b` holds when the
comparator orders `a` strictly before `b`. -/
def sortJS {α : Type} (pr : α → α → Bool) : List α → List α
  | [] => []
  | x :: xs => insertBy pr x (sortJS pr xs)

theorem mem_insertBy {α : Type} (pr : α → α → Bool) (x a : α)
    (l : List α) : a ∈ insertBy pr x l ↔ a = x ∨ a ∈ l := by
  induction l with
  | nil => simp [insertBy]
  | cons y ys ih =>
      by_cases h : pr y x
      · simp only [insertBy, if_pos h, List.mem_cons, ih]
        tauto
      · simp only [insertBy, if_neg h, List.mem_cons]

theorem mem_sortJS {α : Type} (pr : α → α → Bool) (a : α) (l : List α) :
    a ∈ sortJS pr l ↔ a ∈ l := by
  induction l with
  | nil => simp [sortJS]
  | cons x xs ih =>
      simp only [sortJS, mem_insertBy, List.mem_cons, ih]

theorem length_insertBy {α : Type} (pr : α → α → Bool) (x : α)
    (l : List α) : (insertBy pr x l).length = l.length + 1 := by
  induction l with
  | nil => rfl
  | cons y ys ih =>
      by_cases h : pr y x <;> simp [insertBy, h, ih]

theorem length_sortJS {α : Type} (pr : α → α → Bool) (l : List α) :
    (sortJS pr l).length = l.length := by
  induction l with
  | nil => rfl
  | cons x xs ih => simp [sortJS, length_insertBy, ih]

theorem pairwise_insertBy_key {α : Type} (key : α → Nat) (x : α)
    (l : List α) (h : l.Pairwise (fun a b => key b ≤ key a)) :
    (insertBy (fun a b => key b < key a) x l).Pairwise
      (fun a b => key b ≤ key a) := by
  induction l with
  | nil => simp [insertBy]
  | cons y ys ih =>
      rw [List.pairwise_cons] at h
      by_cases hyx : key x < key y
      · rw [insertBy, if_pos (by simpa using hyx)]
        rw [List.pairwise_cons]
        constructor
        · intro z hz
          rcases (mem_insertBy _ x z ys).1 hz with rfl | hz
          · exact le_of_lt hyx
          · exact h.1 z hz
        · exact ih h.2
      · rw [insertBy, if_neg (by simpa using hyx)]
        rw [List.pairwise_cons]
        constructor
        · intro z hz
          rcases List.mem_cons.1 hz with rfl | hz
          · exact Nat.le_of_not_lt hyx
          · exact le_trans (h.1 z hz) (Nat.le_of_not_lt hyx)
        · exact List.pairwise_cons.mpr h
  
theorem pairwise_sortJS_key {α : Type} (key : α → Nat) (l : List α) :
    (sortJS (fun a b => key b < key a) l).Pairwise
      (fun a b => key b ≤ key a) := by
  induction l with
  | nil => simp [sortJS]
  | cons x xs ih => exact pairwise_insertBy_key key x _ ih

theorem filter_insertBy_key {α : Type} (key : α → Nat) (k : Nat) (x : α)
    (l : List α) :
    (insertBy (fun a b => key b < key a) x l).filter
        (fun a => key a = k) =
      (x :: l).filter (fun a => key a = k) := by
  induction l with
  | nil => rfl
  | cons y ys ih =>
      by_cases hyx : key x < key y
      · rw [insertBy, if_pos (by simpa using hyx)]
        by_cases hy : key y = k
        · have hx : ¬ key x = k := by
            intro hx
            rw [hx, hy] at hyx
            exact lt_irrefl _ hyx
          rw [List.filter_cons_of_pos (by simp [hy]), ih,
            List.filter_cons_of_neg (by simp [hx]),
            List.filter_cons_of_neg (by simp [hx]),
            List.filter_cons_of_pos (by simp [hy])]
        · rw [List.filter_cons_of_neg (by simp [hy]), ih]
          by_cases hx : key x = k
          · rw [List.filter_cons_of_pos (by simp [hx]),
              List.filter_cons_of_pos (by simp [hx]),
              List.filter_cons_of_neg (by simp [hy])]
          · rw [List.filter_cons_of_neg (by simp [hx]),
              List.filter_cons_of_neg (by simp [hx]),
              List.filter_cons_of_neg (by simp [hy])]
      · rw [insertBy, if_neg (by simpa using hyx)]

theorem filter_sortJS_key {α : Type} (key : α → Nat) (k : Nat)
    (l : List α) :
    (sortJS (fun a b => key b < key a) l).filter (fun a => key a = k) =
      l.filter (fun a => key a = k) := by
  induction l with
  | nil => rfl
  | cons x xs ih =>
      rw [sortJS, filter_insertBy_key]
      by_cases hx : key x = k
      · rw [List.filter_cons_of_pos (by simp [hx]), ih,
          List.filter_cons_of_pos (by simp [hx])]
      · rw [List.filter_cons_of_neg (by simp [hx]), ih,
          List.filter_cons_of_neg (by simp [hx])]

/-! ### Categorizer (categorize-papers.js) -/

/-- A category definition from `categories.json`. -/
structure Category where
  id : String
  name : String
  keywords : List String
deriving DecidableEq, Repr

/-- `MIN_KEYWORD_MATCHES` (categorize-papers.js, line 15). -/
def MIN_KEYWORD_MATCHES : Nat := 1

/-- `pat` is an initial segment of `s`. -/
def charsStart : List Char → List Char → Bool
  | [], _ => true
  | _ :: _, [] => false
  | a :: ps, b :: ss => a = b && charsStart ps ss

/-- `pat` occurs contiguously somewhere in the character list. -/
def charsIncl (pat : List Char) : List Char → Bool
  | [] => charsStart pat []
  | c :: rest => charsStart pat (c :: rest) || charsIncl pat rest

/-- JS `text.includes(pat)`: substring containment. -/
def strIncludes (text pat : String) : Bool :=
  charsIncl pat.data text.data

/-- The lowercased text a paper is matched against
(categorize-papers.js, line 37). -/
def paperText (paper : Paper) : String :=
  (paper.title ++ " " ++ paper.abstract).toLower

/-- Number of the category's keywords found (case-insensitively) in the
text (categorize-papers.js, lines 41-49). -/
def matchCount (text : String) (cat : Category) : Nat :=
  (cat.keywords.filter (fun kw => strIncludes text kw.toLower)).length

/-- `categorizePaper` (categorize-papers.js, lines 36-62): collect
`{id, matches}` for every category with at least
`MIN_KEYWORD_MATCHES` keyword hits, stable-sort by descending match
count, and return the ids. -/
def categorizePaper (paper : Paper) (categories : List Category) :
    List String :=
  let matched := categories.foldl
    (fun acc cat =>
      if MIN_KEYWORD_MATCHES ≤ matchCount (paperText paper) cat then
        acc ++ [(cat.id, matchCount (paperText paper) cat)]
      else acc) []
  (sortJS (fun a b => b.2 < a.2) matched).map Prod.fst

/-- `categorizePapers` (categorize-papers.js, lines 70-116): set
`categories` and `tags = {auto: ids, manual: []}` on every record. -/
def categorizePapers (papers : List Paper) (categories : List Category) :
    List Paper :=
  papers.map (fun paper =>
    { paper with
      categories := some (categorizePaper paper categories)
      tags := some { auto := some (categorizePaper paper categories)
                     manual := some [] } })

/-- The match count a category id stands for in a given run (0 when the
id belongs to no category). -/
def cntOf (categories : List Category) (text : String) (x : String) :
    Nat :=
  match categories.find? (fun c => c.id = x) with
  | some c => matchCount text c
  | none => 0

theorem foldl_if_append {α β : Type} (P : α → Bool) (f : α → β)
    (l : List α) (init : List β) :
    l.foldl (fun acc a => if P a then acc ++ [f a] else acc) init =
      init ++ (l.filter P).map f := by
  induction l generalizing init with
  | nil => simp
  | cons a l ih =>
      by_cases h : P a
      · rw [List.foldl_cons, if_pos h, ih, List.filter_cons_of_pos h]
        simp
      · rw [List.foldl_cons, if_neg h, ih, List.filter_cons_of_neg h]

theorem one_le_length_filter {α : Type} (q : α → Bool) (l : List α) :
    1 ≤ (l.filter q).length ↔ ∃ a ∈ l, q a = true := by
  induction l with
  | nil => simp
  | cons a l ih =>
      by_cases h : q a
      · rw [List.filter_cons_of_pos h]
        simp only [List.length_cons]
        constructor
        · intro _
          exact ⟨a, List.mem_cons_self _ _, h⟩
        · intro _
          exact Nat.succ_le_succ (Nat.zero_le _)
      · rw [List.filter_cons_of_neg h, ih]
        constructor
        · rintro ⟨x, hx, hq⟩
          exact ⟨x, List.mem_cons_of_mem _ hx, hq⟩
        · rintro ⟨x, hx, hq⟩
          rcases List.mem_cons.1 hx with rfl | hx
          · exact absurd hq (by simp [h])
          · exact ⟨x, hx, hq⟩

theorem cntOf_eq (categories : List Category)
    (hnd : (categories.map Category.id).Nodup) (text : String)
    (c : Category) (hc : c ∈ categories) :
    cntOf categories text c.id = matchCount text c := by
  unfold cntOf
  cases hf : categories.find? (fun c' => c'.id = c.id) with
  | none =>
      rw [List.find?_eq_none] at hf
      exact absurd (by simp) (hf c hc)
  | some c' =>
      have h1 := List.find?_some hf
      simp only [decide_eq_true_eq] at h1
      have h2 := List.mem_of_find?_eq_some hf
      rw [List.inj_on_of_nodup_map hnd h2 hc h1]

theorem foldl_ite_append {α β : Type} (P : α → Prop) [DecidablePred P]
    (f : α → β) (l : List α) (init : List β) :
    l.foldl (fun acc a => if P a then acc ++ [f a] else acc) init =
      init ++ (l.filter (fun a => P a)).map f := by
  induction l generalizing init with
  | nil => simp
  | cons a l ih =>
      by_cases h : P a
      · rw [List.foldl_cons, if_pos h, ih,
          List.filter_cons_of_pos (by simpa using h)]
        simp
      · rw [List.foldl_cons, if_neg h, ih,
          List.filter_cons_of_neg (by simpa using h)]

theorem categorizePaper_eq (paper : Paper) (categories : List Category) :
    categorizePaper paper categories =
      (sortJS (fun a b => b.2 < a.2)
        ((categories.filter (fun c =>
            MIN_KEYWORD_MATCHES ≤ matchCount (paperText paper) c)).map
          (fun c => (c.id, matchCount (paperText paper) c)))).map
        Prod.fst := by
  unfold categorizePaper
  rw [foldl_ite_append
    (fun cat => MIN_KEYWORD_MATCHES ≤ matchCount (paperText paper) cat)
    (fun cat => (cat.id, matchCount (paperText paper) cat)) categories []]
  rfl

/-- C5.  `categorizePaper` assigns exactly the categories at least one of
whose keywords occurs case-insensitively in the lowercased
title-plus-abstract text; the resulting id list is ordered by descending
keyword-match count, and within one match count the ids appear in the
insertion order of the category definitions. -/
theorem categorizePaper_characterization (paper : Paper)
    (categories : List Category)
    (hnd : (categories.map Category.id).Nodup) :
    (∀ c ∈ categories,
      (c.id ∈ categorizePaper paper categories ↔
        ∃ kw ∈ c.keywords,
          strIncludes (paperText paper) kw.toLower = true)) ∧
    (∀ x ∈ categorizePaper paper categories,
      ∃ c ∈ categories, c.id = x) ∧
    (categorizePaper paper categories).Pairwise
      (fun a b => cntOf categories (paperText paper) b ≤
        cntOf categories (paperText paper) a) ∧
    (∀ k, 1 ≤ k →
      (categorizePaper paper categories).filter
          (fun x => cntOf categories (paperText paper) x = k) =
        (categories.filter
          (fun c => matchCount (paperText paper) c = k)).map
          Category.id) := by
  set text := paperText paper with htext
  set matched := (categories.filter (fun c =>
      MIN_KEYWORD_MATCHES ≤ matchCount text c)).map
    (fun c => (c.id, matchCount text c)) with hmdef
  have hcat : categorizePaper paper categories =
      (sortJS (fun a b => b.2 < a.2) matched).map Prod.fst :=
    categorizePaper_eq paper categories
  have hmem : ∀ pr : String × Nat, pr ∈ matched ↔
      ∃ c ∈ categories, MIN_KEYWORD_MATCHES ≤ matchCount text c ∧
        pr = (c.id, matchCount text c) := by
    intro pr
    rw [hmdef]
    constructor
    · intro h
      obtain ⟨c, hcf, hpr⟩ := List.mem_map.mp h
      obtain ⟨hc1, hc2⟩ := List.mem_filter.mp hcf
      exact ⟨c, hc1, by simpa using hc2, hpr.symm⟩
    · rintro ⟨c, hc1, hc2, rfl⟩
      exact List.mem_map.mpr
        ⟨c, List.mem_filter.mpr ⟨hc1, by simpa using hc2⟩, rfl⟩
  have hcnt_pr : ∀ pr ∈ matched, cntOf categories text pr.1 = pr.2 := by
    intro pr hpr
    obtain ⟨c, hc, _, heq⟩ := (hmem pr).1 hpr
    rw [heq]
    exact cntOf_eq categories hnd text c hc
  refine ⟨?_, ?_, ?_, ?_⟩
  · intro c hc
    rw [hcat]
    constructor
    · intro hin
      obtain ⟨pr, hpr, hfst⟩ := List.mem_map.mp hin
      rw [mem_sortJS] at hpr
      obtain ⟨c', hc', hle, heq⟩ := (hmem pr).1 hpr
      have hid' : c'.id = c.id := by
        rw [heq] at hfst
        exact hfst
      have hcc : c' = c := List.inj_on_of_nodup_map hnd hc' hc hid'
      rw [hcc] at hle
      exact (one_le_length_filter _ _).1 hle
    · rintro ⟨kw, hkw, hocc⟩
      have hle : MIN_KEYWORD_MATCHES ≤ matchCount text c :=
        (one_le_length_filter _ _).2 ⟨kw, hkw, hocc⟩
      apply List.mem_map.mpr
      refine ⟨(c.id, matchCount text c), ?_, rfl⟩
      rw [mem_sortJS]
      exact (hmem _).2 ⟨c, hc, hle, rfl⟩
  · intro x hx
    rw [hcat] at hx
    obtain ⟨pr, hpr, hfst⟩ := List.mem_map.mp hx
    rw [mem_sortJS] at hpr
    obtain ⟨c, hc, _, heq⟩ := (hmem pr).1 hpr
    refine ⟨c, hc, ?_⟩
    rw [heq] at hfst
    exact hfst
  · rw [hcat]
    have hp : (sortJS (fun a b : String × Nat => b.2 < a.2)
        matched).Pairwise (fun a b => b.2 ≤ a.2) :=
      pairwise_sortJS_key (fun pr => pr.2) matched
    rw [List.pairwise_map]
    refine hp.imp_of_mem ?_
    intro a b ha hb hle
    rw [mem_sortJS] at ha hb
    rw [hcnt_pr a ha, hcnt_pr b hb]
    exact hle
  · intro k hk
    rw [hcat, List.filter_map]
    have hcongr : (sortJS (fun a b : String × Nat => b.2 < a.2)
          matched).filter
        ((fun x => decide (cntOf categories text x = k)) ∘ Prod.fst) =
        (sortJS (fun a b : String × Nat => b.2 < a.2) matched).filter
        (fun pr => pr.2 = k) := by
      apply List.filter_congr
      intro pr hpr
      rw [mem_sortJS] at hpr
      simp only [Function.comp_apply]
      rw [hcnt_pr pr hpr]
    rw [hcongr,
      filter_sortJS_key (fun pr : String × Nat => pr.2) k matched]
    have hmk : matched.filter (fun pr => pr.2 = k) =
        (categories.filter (fun c => matchCount text c = k)).map
          (fun c => (c.id, matchCount text c)) := by
      rw [hmdef, List.filter_map, List.filter_filter]
      congr 1
      apply List.filter_congr
      intro c _
      by_cases hck : matchCount text c = k
      · simp only [hck, Function.comp_apply, decide_eq_true_eq]
        simp [hck]
        exact hk
      · simp [hck, Function.comp]
    rw [hmk, List.map_map]
    apply List.map_congr_left
    intro c _
    rfl

/-- Sample category definitions for concrete categorizer runs. -/
def sampleCatAgents : Category :=
  { id := "agents", name := "Agents", keywords := ["agent"] }

/-- A category with no matching keyword in the sample paper. -/
def sampleCatRag : Category :=
  { id := "rag", name := "RAG", keywords := ["retrieval"] }

/-- A paper whose text matches only the `agents` category. -/
def sampleCatPaper : Paper :=
  { id := "2402.00001", title := "An Agent Survey",
    abstract := "agent systems overview", authors := [],
    publishedDate := "2024-02-01T00:00:00Z", updatedDate := none,
    arxivUrl := none, categories := none, tags := none }

theorem categorizePaper_characterization_witness :
    ([sampleCatAgents, sampleCatRag].map Category.id).Nodup ∧
    (sampleCatAgents.id ∈
        categorizePaper sampleCatPaper [sampleCatAgents, sampleCatRag] ↔
      ∃ kw ∈ sampleCatAgents.keywords,
        strIncludes (paperText sampleCatPaper) kw.toLower = true) :=
  ⟨by decide,
    (categorizePaper_characterization sampleCatPaper
        [sampleCatAgents, sampleCatRag] (by decide)).1 sampleCatAgents
      (by decide)⟩

/-! ### Index builder (build-index.js) -/

/-- `[...new Set(xs)]`: the distinct elements in first-occurrence
order. -/
def dedupFirst {α : Type} [DecidableEq α] (l : List α) : List α :=
  l.foldl (fun acc x => if x ∈ acc then acc else acc ++ [x]) []

theorem mem_dedupFirst {α : Type} [DecidableEq α] (a : α) (l : List α) :
    a ∈ dedupFirst l ↔ a ∈ l := by
  have aux : ∀ (l' acc : List α),
      (a ∈ l'.foldl (fun acc x => if x ∈ acc then acc else acc ++ [x]) acc ↔
        a ∈ acc ∨ a ∈ l') := by
    intro l'
    induction l' with
    | nil => simp
    | cons x xs ih =>
        intro acc
        rw [List.foldl_cons]
        by_cases hx : x ∈ acc
        · rw [if_pos hx, ih]
          constructor
          · rintro (h | h)
            · exact Or.inl h
            · exact Or.inr (List.mem_cons_of_mem _ h)
          · rintro (h | h)
            · exact Or.inl h
            · rcases List.mem_cons.1 h with rfl | h
              · exact Or.inl hx
              · exact Or.inr h
        · rw [if_neg hx, ih]
          simp only [List.mem_append, List.mem_singleton, List.mem_cons]
          tauto
  rw [dedupFirst, aux l []]
  simp

/-- The trimmed per-paper projection stored in the index
(build-index.js, lines 94-103). -/
structure IndexPaper where
  id : String
  title : String
  authors : List String
  abstract : String
  publishedDate : String
  arxivUrl : String
  categories : List String
  year : Option Nat
deriving DecidableEq, Repr

/-- The aggregate metadata of the index (build-index.js, lines 116-121);
the wall-clock `lastUpdated` timestamp is outside the model. -/
structure IndexMeta where
  totalPapers : Nat
  categories : List String
  years : List (Option Nat)
deriving DecidableEq, Repr

/-- The generated index object. -/
structure ArxivIndex where
  meta : IndexMeta
  papers : List IndexPaper
deriving DecidableEq, Repr

/-- Model of `parseInt(s.substring(0, 4))` for the stored date strings:
value of the leading digits among the first four characters; `none`
models the JS `NaN` result when no leading digit exists. -/
def jsYear (s : String) : Option Nat :=
  let ds := (s.data.take 4).takeWhile Char.isDigit
  if ds.isEmpty then none
  else some (ds.foldl (fun n c => n * 10 + (c.toNat - 48)) 0)

/-- The per-paper projection (build-index.js, lines 94-103);
`paper.abstract || ''` is the identity on present string fields. -/
def projectPaper (paper : Paper) : IndexPaper :=
  { id := paper.id
    title := paper.title
    authors := paper.authors.map Author.name
    abstract := paper.abstract
    publishedDate := paper.publishedDate
    arxivUrl := jsOrStr paper.arxivUrl ("https://arxiv.org/abs/" ++ paper.id)
    categories := paper.categories.getD []
    year := jsYear paper.publishedDate }

/-- `buildIndex` (build-index.js, lines 89-130): drop blocked ids,
project, sort by date descending (stable), and compute the distinct
years (descending; `none`, the `NaN` year, is ordered as 0) and the
sorted distinct categories in use. -/
def buildIndex (papers : List Paper) (blocklist : List String) :
    ArxivIndex :=
  let indexPapers :=
    (papers.filter (fun p => !(blocklist.any (fun b => b = p.id)))).map
      projectPaper
  let sorted := sortJS
    (fun a b => dateVal b.publishedDate < dateVal a.publishedDate)
    indexPapers
  let years := sortJS (fun a b => b.getD 0 < a.getD 0)
    (dedupFirst (sorted.map IndexPaper.year))
  let cats := sortJS (fun a b => a < b)
    (dedupFirst (sorted.foldl (fun acc p => acc ++ p.categories) []))
  { meta := { totalPapers := sorted.length, categories := cats,
              years := years }
    papers := sorted }

/-- The persisted year-partition object `{year, count, papers}`
(`saveYearPapers`). -/
structure YearPartition where
  year : Option Nat
  count : Nat
  papers : List Paper
deriving DecidableEq, Repr

/-- `loadAllPapers` (build-index.js, lines 24-55): the concatenation of
every partition's `papers` array. -/
def loadAllPapers (parts : List YearPartition) : List Paper :=
  parts.foldl (fun acc part => acc ++ part.papers) []

/-- Index building as run by `buildAndSaveIndex`: all partitions are
loaded and flattened, then `buildIndex` runs on the union. -/
def buildIndexFromPartitions (parts : List YearPartition)
    (blocklist : List String) : ArxivIndex :=
  buildIndex (loadAllPapers parts) blocklist

/-- The blocked 2023 paper of the index-exclusion scenario. -/
def samplePartPaper1 : Paper :=
  { id := "2301.10001", title := "p1", abstract := "", authors := [],
    publishedDate := "2023-05-01T00:00:00Z", updatedDate := none,
    arxivUrl := none, categories := some ["agents"], tags := none }

/-- An unblocked 2024 paper. -/
def samplePartPaper2 : Paper :=
  { id := "2402.10002", title := "p2", abstract := "", authors := [],
    publishedDate := "2024-03-01T00:00:00Z", updatedDate := none,
    arxivUrl := none, categories := some ["rag"], tags := none }

/-- A second unblocked 2024 paper. -/
def samplePartPaper3 : Paper :=
  { id := "2404.10003", title := "p3", abstract := "", authors := [],
    publishedDate := "2024-04-02T00:00:00Z", updatedDate := none,
    arxivUrl := none, categories := some [], tags := none }

/-- The partitions {2023: [p1 blocked], 2024: [p2, p3]} of the
scenario. -/
def sampleParts : List YearPartition :=
  [⟨some 2023, 1, [samplePartPaper1]⟩,
   ⟨some 2024, 2, [samplePartPaper2, samplePartPaper3]⟩]

/-- C6.  No blocked record reaches the built index: blocked ids never
appear among the index papers, do not count towards
`meta.totalPapers`, and a year all of whose records are blocked does not
appear in `meta.years`; concretely, partitions
{2023: [p1 blocked], 2024: [p2, p3]} with block-list {p1} give
`totalPapers = 2` and `years = [2024]`. -/
theorem buildIndex_excludes_blocked :
    (∀ (parts : List YearPartition) (blocklist : List String),
      (∀ r ∈ (buildIndexFromPartitions parts blocklist).papers,
        r.id ∉ blocklist) ∧
      (buildIndexFromPartitions parts blocklist).meta.totalPapers =
        ((loadAllPapers parts).filter
          (fun p => !(blocklist.any (fun b => b = p.id)))).length ∧
      (∀ y ∈ (buildIndexFromPartitions parts blocklist).meta.years,
        ∃ p ∈ loadAllPapers parts,
          p.id ∉ blocklist ∧ jsYear p.publishedDate = y)) ∧
    ((buildIndexFromPartitions sampleParts ["2301.10001"]).meta.totalPapers
        = 2 ∧
      (buildIndexFromPartitions sampleParts ["2301.10001"]).meta.years =
        [some 2024]) := by
  constructor
  · intro parts blocklist
    refine ⟨?_, ?_, ?_⟩
    · simp only [buildIndexFromPartitions, buildIndex]
      intro r hr
      rw [mem_sortJS] at hr
      obtain ⟨p, hp, hpr⟩ := List.mem_map.mp hr
      have h2 : blocklist.any (fun b => b = p.id) = false := by
        simpa using (List.mem_filter.mp hp).2
      rw [List.any_eq_false] at h2
      intro hc
      rw [← hpr] at hc
      exact h2 p.id hc (by simp)
    · simp only [buildIndexFromPartitions, buildIndex]
      rw [length_sortJS, List.length_map]
    · simp only [buildIndexFromPartitions, buildIndex]
      intro y hy
      rw [mem_sortJS, mem_dedupFirst] at hy
      obtain ⟨r, hr, hry⟩ := List.mem_map.mp hy
      rw [mem_sortJS] at hr
      obtain ⟨p, hp, hpr⟩ := List.mem_map.mp hr
      refine ⟨p, (List.mem_filter.mp hp).1, ?_, ?_⟩
      · have h2 : blocklist.any (fun b => b = p.id) = false := by
          simpa using (List.mem_filter.mp hp).2
        rw [List.any_eq_false] at h2
        intro hc
        exact h2 p.id hc (by simp)
      · rw [← hry, ← hpr]
        rfl
  · exact ⟨by decide, by decide⟩

theorem buildIndex_excludes_blocked_witness :
    (buildIndexFromPartitions sampleParts ["2301.10001"]).meta.totalPapers
        = ((loadAllPapers sampleParts).filter
          (fun p => !((["2301.10001"] : List String).any
            (fun b => b = p.id)))).length ∧
    ((loadAllPapers sampleParts).filter
        (fun p => !((["2301.10001"] : List String).any
          (fun b => b = p.id)))).length = 2 :=
  ⟨(buildIndex_excludes_blocked.1 sampleParts ["2301.10001"]).2.1,
    by decide⟩

/-! ### Multi-query collector (fetch-arxiv.js) -/

/-- One step of the per-record dedup loop inside
`fetchPapersMultiQuery` (fetch-arxiv.js, lines 203-209): skip a record
whose id is in the seen set, otherwise push it and remember its id. -/
def collectStep (acc : List Paper × List String) (p : Paper) :
    List Paper × List String :=
  if acc.2.any (fun s => s = p.id) then acc
  else (acc.1 ++ [p], acc.2 ++ [p.id])

/-- `fetchPapersMultiQuery` (fetch-arxiv.js, lines 184-225) as a
function of each query's fetch outcome, in query order: a failed query
is caught and skipped; a successful query contributes its records minus
the already-seen ids. -/
def fetchPapersMultiQuery (results : List (Except String (List Paper))) :
    List Paper :=
  (results.foldl
    (fun acc r =>
      match r with
      | Except.ok papers => papers.foldl collectStep acc
      | Except.error _ => acc)
    ([], [])).1

/-- The concatenated records of the successful queries, in order. -/
def okRecords : List (Except String (List Paper)) → List Paper
  | [] => []
  | Except.ok papers :: rs => papers ++ okRecords rs
  | Except.error _ :: rs => okRecords rs

/-- First occurrence of each record id, in encounter order: the shape
the specification claims for the collector's output. -/
def dedupById (l : List Paper) : List Paper :=
  l.foldl
    (fun a p => if a.any (fun q => q.id = p.id) then a else a ++ [p]) []

theorem collect_fold (l : List Paper) (acc : List Paper × List String)
    (hinv : ∀ s, acc.2.any (fun t => t = s) =
      acc.1.any (fun q => q.id = s)) :
    (l.foldl collectStep acc).1 =
      l.foldl
        (fun a p => if a.any (fun q => q.id = p.id) then a else a ++ [p])
        acc.1 ∧
    ∀ s, (l.foldl collectStep acc).2.any (fun t => t = s) =
      (l.foldl collectStep acc).1.any (fun q => q.id = s) := by
  induction l generalizing acc with
  | nil => exact ⟨rfl, hinv⟩
  | cons p l ih =>
      rw [List.foldl_cons, List.foldl_cons]
      cases hseen : acc.2.any (fun t => t = p.id) with
      | true =>
          have hseen1 : acc.1.any (fun q => q.id = p.id) = true := by
            rw [← hinv p.id]
            exact hseen
          rw [show collectStep acc p = acc from by
            unfold collectStep
            rw [if_pos hseen]]
          rw [if_pos hseen1]
          exact ih acc hinv
      | false =>
          have hseen1 : acc.1.any (fun q => q.id = p.id) = false := by
            rw [← hinv p.id]
            exact hseen
          rw [show collectStep acc p = (acc.1 ++ [p], acc.2 ++ [p.id]) from
            by
              unfold collectStep
              rw [if_neg (by simp [hseen])]]
          rw [if_neg (by simp [hseen1])]
          refine ih (acc.1 ++ [p], acc.2 ++ [p.id]) ?_
          intro s
          simp only [List.any_append]
          rw [hinv s]
          simp
  
theorem multiQuery_fold (rs : List (Except String (List Paper)))
    (acc : List Paper × List String)
    (hinv : ∀ s, acc.2.any (fun t => t = s) =
      acc.1.any (fun q => q.id = s)) :
    (rs.foldl
      (fun acc r =>
        match r with
        | Except.ok papers => papers.foldl collectStep acc
        | Except.error _ => acc) acc).1 =
      (okRecords rs).foldl
        (fun a p => if a.any (fun q => q.id = p.id) then a else a ++ [p])
        acc.1 := by
  induction rs generalizing acc with
  | nil => rfl
  | cons r rs ih =>
      cases r with
      | error e =>
          rw [List.foldl_cons]
          exact ih acc hinv
      | ok papers =>
          rw [List.foldl_cons]
          obtain ⟨h1, h2⟩ := collect_fold papers acc hinv
          rw [show okRecords (Except.ok papers :: rs) =
            papers ++ okRecords rs from rfl, List.foldl_append]
          rw [ih (papers.foldl collectStep acc) h2, h1]

/-- A record returned by the first query. -/
def sampleQA : Paper :=
  { id := "2405.00001", title := "A", abstract := "", authors := [],
    publishedDate := "2024-05-01T00:00:00Z", updatedDate := none,
    arxivUrl := none, categories := none, tags := none }

/-- A record returned by the first query and duplicated by the second. -/
def sampleQB : Paper :=
  { id := "2405.00002", title := "B", abstract := "", authors := [],
    publishedDate := "2024-05-02T00:00:00Z", updatedDate := none,
    arxivUrl := none, categories := none, tags := none }

/-- The second query's copy of `sampleQB` (same id). -/
def sampleQBdup : Paper :=
  { id := "2405.00002", title := "B again", abstract := "", authors := [],
    publishedDate := "2024-05-02T00:00:00Z", updatedDate := none,
    arxivUrl := none, categories := none, tags := none }

/-- A record only the second query returns. -/
def sampleQC : Paper :=
  { id := "2405.00003", title := "C", abstract := "", authors := [],
    publishedDate := "2024-05-03T00:00:00Z", updatedDate := none,
    arxivUrl := none, categories := none, tags := none }

/-- C7.  The collector returns, in encounter order, exactly the first
occurrence of each record id across the successful queries' results;
concretely, Q1 = [A, B] and Q2 = [B, C] (B duplicated by id) collect to
exactly [A, B, C]. -/
theorem multiQuery_first_seen :
    (∀ results : List (Except String (List Paper)),
      fetchPapersMultiQuery results = dedupById (okRecords results)) ∧
    fetchPapersMultiQuery
        [Except.ok [sampleQA, sampleQB],
         Except.ok [sampleQBdup, sampleQC]] =
      [sampleQA, sampleQB, sampleQC] := by
  constructor
  · intro results
    unfold fetchPapersMultiQuery dedupById
    exact multiQuery_fold results ([], []) (fun s => rfl)
  · decide

/-! ### Fetcher pagination (fetch-arxiv.js) -/

/-- A parsed upstream response page: the reported total number of
results and the page's entries. -/
structure Page where
  totalResults : Nat
  entries : List Paper
deriving Repr

/-- `MAX_RESULTS_PER_REQUEST` (fetch-arxiv.js, line 13). -/
def MAX_RESULTS_PER_REQUEST : Nat := 100

/-- `len < maxResults` where `maxResults` may be `Infinity` (`none`). -/
def ltMax (n : Nat) (maxResults : Option Nat) : Bool :=
  match maxResults with
  | none => true
  | some m => n < m

/-- `Math.min(MAX_RESULTS_PER_REQUEST, maxResults - allPapers.length)`
(fetch-arxiv.js, line 114), with `Infinity` yielding a full page. -/
def resultsToFetch (len : Nat) (maxResults : Option Nat) : Nat :=
  match maxResults with
  | none => MAX_RESULTS_PER_REQUEST
  | some m => min MAX_RESULTS_PER_REQUEST (m - len)

/-- The pagination loop of `fetchPapersForQuery` (fetch-arxiv.js,
lines 111-172) over an oracle giving each start offset's upstream
outcome; `fuel` bounds the iteration count, everything else is a direct
embedding of the loop body: an error at offset 0 propagates, an error at
a later offset ends pagination with the records collected so far, and
pagination also ends on an empty page, a short page, exhausted
`totalResults`, or on reaching `maxResults`. -/
def fetchLoop (oracle : Nat → Except String Page)
    (maxResults : Option Nat) :
    Nat → Nat → List Paper → Except String (List Paper)
  | 0, _, allPapers => Except.ok allPapers
  | fuel + 1, start, allPapers =>
      if ltMax allPapers.length maxResults then
        match oracle start with
        | Except.error e =>
            if start = 0 then Except.error e else Except.ok allPapers
        | Except.ok page =>
            if page.entries.length = 0 then Except.ok allPapers
            else
              if page.totalResults ≤ start + page.entries.length ∨
                  page.entries.length <
                    resultsToFetch allPapers.length maxResults ∨
                  ltMax (allPapers ++ page.entries).length maxResults
                    = false then
                Except.ok (allPapers ++ page.entries)
              else
                fetchLoop oracle maxResults fuel
                  (start + page.entries.length) (allPapers ++ page.entries)
      else
        Except.ok allPapers

/-- `fetchPapersForQuery` (fetch-arxiv.js, lines 93-176): run the
pagination loop from offset 0 with nothing accumulated. -/
def fetchPapersForQuery (oracle : Nat → Except String Page)
    (maxResults : Option Nat) (fuel : Nat) :
    Except String (List Paper) :=
  fetchLoop oracle maxResults fuel 0 []

/-- C9.  A transient failure on the first page (offset 0) propagates out
of `fetchPapersForQuery`; a failure at any later offset ends pagination
and returns exactly the records accumulated from the preceding
successful pages, without raising. -/
theorem fetch_failure_semantics :
    (∀ (oracle : Nat → Except String Page) (maxResults : Option Nat)
        (fuel : Nat) (e : String),
      oracle 0 = Except.error e → ltMax 0 maxResults = true →
      fetchPapersForQuery oracle maxResults (fuel + 1) =
        Except.error e) ∧
    (∀ (oracle : Nat → Except String Page) (maxResults : Option Nat)
        (fuel start : Nat) (acc : List Paper) (e : String),
      start ≠ 0 → oracle start = Except.error e →
      fetchLoop oracle maxResults (fuel + 1) start acc =
        Except.ok acc) := by
  constructor
  · intro oracle maxResults fuel e h0 hlt
    unfold fetchPapersForQuery fetchLoop
    simp only [List.length_nil]
    rw [if_pos hlt, h0]
    simp
  · intro oracle maxResults fuel start acc e hs he
    unfold fetchLoop
    cases hlt : ltMax acc.length maxResults with
    | false => simp
    | true => simp [he, hs]

theorem fetch_failure_semantics_witness :
    fetchPapersForQuery (fun _ => Except.error "boom") none 1 =
      Except.error "boom" ∧
    fetchLoop (fun _ => Except.error "boom") none 1 1 [sampleQA] =
      Except.ok [sampleQA] :=
  ⟨fetch_failure_semantics.1 (fun _ => Except.error "boom") none 0 "boom"
      rfl rfl,
    fetch_failure_semantics.2 (fun _ => Except.error "boom") none 0 1
      [sampleQA] "boom" (by decide) rfl⟩

/-! ### arXiv id extraction (xml-parser.js) -/

/-- Exactly `n` digits taken from the front, with the remainder. -/
def takeDigits : Nat → List Char → Option (List Char × List Char)
  | 0, l => some ([], l)
  | _ + 1, [] => none
  | n + 1, c :: l =>
      if c.isDigit then
        match takeDigits n l with
        | some (ds, rest) => some (c :: ds, rest)
        | none => none
      else none

/-- The tail admitted after the id digits: end of string, or a version
suffix `v` followed by one or more digits running to the end — the
`(v\d+)?$` part of the regex. -/
def tailMatch (l : List Char) : Bool :=
  match l with
  | [] => true
  | c :: rest => c = 'v' && !rest.isEmpty && rest.all Char.isDigit

/-- The four-digit fallback of the greedy `\d{4,5}` after the dot. -/
def matchFour (d4 rest2 : List Char) : Option (List Char) :=
  match takeDigits 4 rest2 with
  | some (d4b, rest3b) =>
      if tailMatch rest3b then some (d4 ++ '.' :: d4b) else none
  | none => none

/-- The part after the dot: greedily five digits, else four, then the
admitted tail up to the end of the string. -/
def matchAfterDot (d4 rest2 : List Char) : Option (List Char) :=
  match takeDigits 5 rest2 with
  | some (d5, rest3) =>
      if tailMatch rest3 then some (d4 ++ '.' :: d5)
      else matchFour d4 rest2
  | none => matchFour d4 rest2

/-- Attempt of the regex `(\d{4}\.\d{4,5})(v\d+)?$` at a fixed start
position: four digits, a dot, then `matchAfterDot`. -/
def matchAt (l : List Char) : Option (List Char) :=
  match takeDigits 4 l with
  | none => none
  | some (d4, rest1) =>
      match rest1 with
      | [] => none
      | c :: rest2 => if c = '.' then matchAfterDot d4 rest2 else none

/-- Leftmost match of the end-anchored pattern: try each start position
from the left. -/
def scanMatch : List Char → Option (List Char)
  | [] => none
  | c :: rest =>
      match matchAt (c :: rest) with
      | some s => some s
      | none => scanMatch rest

/-- `extractArxivId` (xml-parser.js, lines 116-122): match
`(\d{4}\.\d{4,5})(v\d+)?$` against the URL and return the first capture
group; a URL with no match raises the malformed-record error. -/
def extractArxivId (url : String) : Except String String :=
  match scanMatch url.data with
  | some s => Except.ok (String.mk s)
  | none => Except.error ("Failed to extract arXiv ID from: " ++ url)

/-- Every character is a decimal digit. -/
abbrev AllDigits (l : List Char) : Prop :=
  ∀ c ∈ l, c.isDigit = true

/-- The shape of an optional trailing version suffix `vN`. -/
def VSuffix (l : List Char) : Prop :=
  l = [] ∨ ∃ ds, ds ≠ [] ∧ AllDigits ds ∧ l = 'v' :: ds

theorem takeDigits_exact (a b : List Char) (ha : AllDigits a) :
    takeDigits a.length (a ++ b) = some (a, b) := by
  induction a with
  | nil => rfl
  | cons c a ih =>
      have hc : c.isDigit = true := ha c (List.mem_cons_self _ _)
      have ha' : AllDigits a := fun x hx =>
        ha x (List.mem_cons_of_mem _ hx)
      have ih2 : takeDigits a.length (a.append b) = some (a, b) := ih ha'
      simp only [List.length_cons, List.cons_append, takeDigits, hc,
        if_true, ih2]

theorem takeDigits_sound (n : Nat) (l ds rest : List Char)
    (h : takeDigits n l = some (ds, rest)) :
    l = ds ++ rest ∧ ds.length = n ∧ AllDigits ds := by
  induction n generalizing l ds with
  | zero =>
      simp only [takeDigits, Option.some.injEq, Prod.mk.injEq] at h
      rw [← h.1, ← h.2]
      exact ⟨rfl, rfl, fun c hc => absurd hc (by simp)⟩
  | succ n ih =>
      cases l with
      | nil => simp [takeDigits] at h
      | cons c l =>
          by_cases hc : c.isDigit
          · simp only [takeDigits, hc, if_true] at h
            cases htd : takeDigits n l with
            | none => rw [htd] at h; simp at h
            | some pr =>
                rw [htd] at h
                simp only [Option.some.injEq, Prod.mk.injEq] at h
                obtain ⟨hds, hrest⟩ := h
                obtain ⟨h1, h2, h3⟩ := ih l pr.1 (by rw [htd, ← hrest])
                constructor
                · rw [← hds, List.cons_append, ← h1]
                · constructor
                  · rw [← hds, List.length_cons, h2]
                  · intro x hx
                    rw [← hds] at hx
                    rcases List.mem_cons.1 hx with rfl | hx
                    · exact hc
                    · exact h3 x hx
          · simp [takeDigits, hc] at h

theorem takeDigits_short (a b : List Char) (n : Nat) (ha : AllDigits a)
    (hlen : a.length < n)
    (hb : b = [] ∨ ∃ c bs, b = c :: bs ∧ c.isDigit = false) :
    takeDigits n (a ++ b) = none := by
  induction a generalizing n with
  | nil =>
      cases n with
      | zero => cases hlen
      | succ n =>
          rcases hb with rfl | ⟨c, bs, rfl, hc⟩
          · rfl
          · simp [takeDigits, hc]
  | cons c a ih =>
      cases n with
      | zero => cases hlen
      | succ n =>
          have hc : c.isDigit = true := ha c (List.mem_cons_self _ _)
          have ha' : AllDigits a := fun x hx =>
            ha x (List.mem_cons_of_mem _ hx)
          have ih' := ih ha' (n := n) (Nat.lt_of_succ_lt_succ
            (by simpa [List.length_cons] using hlen))
          simp [takeDigits, hc, ih']

theorem tailMatch_of_vsuffix (l : List Char) (h : VSuffix l) :
    tailMatch l = true := by
  rcases h with rfl | ⟨ds, hne, hds, rfl⟩
  · rfl
  · have h1 : (ds.all Char.isDigit) = true := List.all_eq_true.mpr hds
    have h2 : ds.isEmpty = false := by
      cases ds with
      | nil => exact absurd rfl hne
      | cons x xs => rfl
    simp [tailMatch, h1, h2]

theorem vsuffix_head_not_digit (l : List Char) (h : VSuffix l) :
    l = [] ∨ ∃ c bs, l = c :: bs ∧ c.isDigit = false := by
  rcases h with rfl | ⟨ds, _, _, rfl⟩
  · exact Or.inl rfl
  · exact Or.inr ⟨'v', ds, rfl, by decide⟩

theorem matchAt_core (d4 d5 vsuf : List Char)
    (h4 : d4.length = 4) (hd4 : AllDigits d4)
    (h5 : d5.length = 4 ∨ d5.length = 5) (hd5 : AllDigits d5)
    (hv : VSuffix vsuf) :
    matchAt (d4 ++ '.' :: (d5 ++ vsuf)) = some (d4 ++ '.' :: d5) := by
  have htd4 : takeDigits 4 (d4 ++ '.' :: (d5 ++ vsuf)) =
      some (d4, '.' :: (d5 ++ vsuf)) := by
    rw [← h4]
    exact takeDigits_exact d4 _ hd4
  have htail : tailMatch vsuf = true := tailMatch_of_vsuffix vsuf hv
  rcases h5 with h5 | h5
  · have hnone : takeDigits 5 (d5 ++ vsuf) = none :=
      takeDigits_short d5 vsuf 5 hd5 (by rw [h5]; decide)
        (vsuffix_head_not_digit vsuf hv)
    have hfour : takeDigits 4 (d5 ++ vsuf) = some (d5, vsuf) := by
      rw [← h5]
      exact takeDigits_exact d5 _ hd5
    simp only [matchAt, matchAfterDot, matchFour, htd4, hnone,
      hfour, htail, if_true]
  · have hfive : takeDigits 5 (d5 ++ vsuf) = some (d5, vsuf) := by
      rw [← h5]
      exact takeDigits_exact d5 _ hd5
    simp only [matchAt, matchAfterDot, htd4, hfive, htail, if_true]


theorem matchFour_sound (d4 rest2 s : List Char)
    (h : matchFour d4 rest2 = some s) :
    ∃ e5 tl, rest2 = e5 ++ tl ∧ s = d4 ++ '.' :: e5 ∧ e5.length = 4 ∧
      AllDigits e5 ∧ tailMatch tl = true := by
  unfold matchFour at h
  split at h
  · rename_i x d4b rest3b htd
    split at h
    · rename_i ht
      obtain ⟨h1, h2, h3⟩ := takeDigits_sound 4 rest2 d4b rest3b htd
      injection h with h'
      exact ⟨d4b, rest3b, h1, h'.symm, h2, h3, ht⟩
    · simp at h
  · simp at h

theorem matchAfterDot_sound (d4 rest2 s : List Char)
    (h : matchAfterDot d4 rest2 = some s) :
    ∃ e5 tl, rest2 = e5 ++ tl ∧ s = d4 ++ '.' :: e5 ∧
      (e5.length = 4 ∨ e5.length = 5) ∧ AllDigits e5 ∧
      tailMatch tl = true := by
  unfold matchAfterDot at h
  split at h
  · rename_i x d5 rest3 htd
    split at h
    · rename_i ht
      obtain ⟨h1, h2, h3⟩ := takeDigits_sound 5 rest2 d5 rest3 htd
      injection h with h'
      exact ⟨d5, rest3, h1, h'.symm, Or.inr h2, h3, ht⟩
    · obtain ⟨e5, tl, h1, h2, h3, h4, h5⟩ := matchFour_sound d4 rest2 s h
      exact ⟨e5, tl, h1, h2, Or.inl h3, h4, h5⟩
  · obtain ⟨e5, tl, h1, h2, h3, h4, h5⟩ := matchFour_sound d4 rest2 s h
    exact ⟨e5, tl, h1, h2, Or.inl h3, h4, h5⟩

theorem matchAt_sound (l s : List Char) (h : matchAt l = some s) :
    ∃ e4 e5 tl, l = e4 ++ '.' :: (e5 ++ tl) ∧ s = e4 ++ '.' :: e5 ∧
      e4.length = 4 ∧ AllDigits e4 ∧
      (e5.length = 4 ∨ e5.length = 5) ∧ AllDigits e5 ∧
      tailMatch tl = true := by
  unfold matchAt at h
  split at h
  · simp at h
  · split at h
    · simp at h
    · rename_i x d4 rest1 c rest2 htd4
      split at h
      · rename_i hdot
        obtain ⟨h1, h2, h3⟩ := takeDigits_sound 4 l d4 (c :: rest2) htd4
        obtain ⟨e5, tl, k1, k2, k3, k4, k5⟩ :=
          matchAfterDot_sound d4 rest2 s h
        refine ⟨d4, e5, tl, ?_, k2, h2, h3, k3, k4, k5⟩
        rw [h1, hdot, k1]
      · simp at h

theorem alldigits_no_dot (l : List Char) (h : AllDigits l) : '.' ∉ l :=
  fun hm => absurd (h '.' hm) (by decide)

theorem tailMatch_head (a : Char) (rest : List Char)
    (h : tailMatch (a :: rest) = true) : a = 'v' := by
  simp only [tailMatch, Bool.and_eq_true, decide_eq_true_eq] at h
  exact h.1.1

theorem tailMatch_vsuffix (tl : List Char) (h : tailMatch tl = true) :
    VSuffix tl := by
  cases tl with
  | nil => exact Or.inl rfl
  | cons c rest =>
      simp only [tailMatch, Bool.and_eq_true, decide_eq_true_eq,
        List.all_eq_true] at h
      obtain ⟨⟨hc, hne⟩, h3⟩ := h
      refine Or.inr ⟨rest, ?_, h3, ?_⟩
      · intro hnil
        rw [hnil] at hne
        simp at hne
      · rw [hc]

theorem vsuffix_no_dot (l : List Char) (h : VSuffix l) : '.' ∉ l := by
  rcases h with rfl | ⟨ds, _, hds, rfl⟩
  · simp
  · intro hm
    rcases List.mem_cons.1 hm with h1 | h1
    · exact absurd h1 (by decide)
    · exact absurd (hds '.' h1) (by decide)

theorem no_dot_body (e5 tl : List Char) (hd : AllDigits e5)
    (ht : tailMatch tl = true) : '.' ∉ e5 ++ tl := by
  intro hm
  rcases List.mem_append.1 hm with hm | hm
  · exact alldigits_no_dot e5 hd hm
  · exact vsuffix_no_dot tl (tailMatch_vsuffix tl ht) hm

theorem no_dot_dv (d5 vsuf : List Char) (hd : AllDigits d5)
    (hv : VSuffix vsuf) : '.' ∉ d5 ++ vsuf := by
  intro hm
  rcases List.mem_append.1 hm with hm | hm
  · exact alldigits_no_dot d5 hd hm
  · exact vsuffix_no_dot vsuf hv hm

theorem dot_split_unique (X Y X' Y' : List Char)
    (h : X ++ '.' :: Y = X' ++ '.' :: Y')
    (hY : '.' ∉ Y) (hY' : '.' ∉ Y') : X = X' ∧ Y = Y' := by
  induction X generalizing X' with
  | nil =>
      cases X' with
      | nil =>
          simp only [List.nil_append] at h
          injection h with _ h2
          exact ⟨rfl, h2⟩
      | cons a X'' =>
          simp only [List.nil_append, List.cons_append] at h
          injection h with _ h2
          exfalso
          apply hY
          rw [h2]
          exact List.mem_append.mpr (Or.inr (List.mem_cons_self _ _))
  | cons a X2 ih =>
      cases X' with
      | nil =>
          simp only [List.nil_append, List.cons_append] at h
          injection h with _ h2
          exfalso
          apply hY'
          rw [← h2]
          exact List.mem_append.mpr (Or.inr (List.mem_cons_self _ _))
      | cons b X2' =>
          simp only [List.cons_append] at h
          injection h with h1 h2
          obtain ⟨ih1, ih2⟩ := ih X2' h2
          exact ⟨by rw [h1, ih1], ih2⟩

theorem scanMatch_eq (pre d4 d5 vsuf : List Char)
    (h4 : d4.length = 4) (hd4 : AllDigits d4)
    (h5 : d5.length = 4 ∨ d5.length = 5) (hd5 : AllDigits d5)
    (hv : VSuffix vsuf) :
    scanMatch (pre ++ (d4 ++ '.' :: (d5 ++ vsuf))) =
      some (d4 ++ '.' :: d5) := by
  induction pre with
  | nil =>
      rw [List.nil_append]
      have hcore := matchAt_core d4 d5 vsuf h4 hd4 h5 hd5 hv
      cases d4 with
      | nil => simp at h4
      | cons a d4' =>
          rw [List.cons_append] at hcore ⊢
          simp only [scanMatch, hcore]
  | cons c pre' ih =>
      rw [List.cons_append]
      cases hm : matchAt (c :: (pre' ++ (d4 ++ '.' :: (d5 ++ vsuf)))) with
      | none => simp only [scanMatch, hm, ih]
      | some s =>
          exfalso
          obtain ⟨e4, e5, tl, hdec, _, hlen4, _, _, hdig5, htl⟩ :=
            matchAt_sound _ s hm
          have hdec2 : c :: (pre' ++ (d4 ++ '.' :: (d5 ++ vsuf))) =
              ((c :: pre') ++ d4) ++ '.' :: (d5 ++ vsuf) := by
            simp [List.cons_append, List.append_assoc]
          obtain ⟨hX, _⟩ := dot_split_unique e4 (e5 ++ tl)
            ((c :: pre') ++ d4) (d5 ++ vsuf) (hdec.symm.trans hdec2)
            (no_dot_body e5 tl hdig5 htl) (no_dot_dv d5 vsuf hd5 hv)
          have hlen := congrArg List.length hX
          rw [hlen4] at hlen
          simp only [List.length_append, List.length_cons] at hlen
          rw [h4] at hlen
          omega

theorem scanMatch_sound (l s : List Char) (h : scanMatch l = some s) :
    ∃ pre e4 e5 tl, l = pre ++ (e4 ++ '.' :: (e5 ++ tl)) ∧
      s = e4 ++ '.' :: e5 ∧ e4.length = 4 ∧ AllDigits e4 ∧
      (e5.length = 4 ∨ e5.length = 5) ∧ AllDigits e5 ∧ VSuffix tl := by
  induction l with
  | nil => simp [scanMatch] at h
  | cons c rest ih =>
      simp only [scanMatch] at h
      split at h
      · rename_i s' heq
        injection h with h'
        obtain ⟨e4, e5, tl, hdec, hs, hl4, hd4, hl5, hd5, htl⟩ :=
          matchAt_sound _ s' heq
        refine ⟨[], e4, e5, tl, ?_, ?_, hl4, hd4, hl5, hd5,
          tailMatch_vsuffix tl htl⟩
        · rw [List.nil_append]
          exact hdec
        · rw [← h', hs]
      · obtain ⟨pre, e4, e5, tl, hdec, hs, hl4, hd4, hl5, hd5, htl⟩ := ih h
        refine ⟨c :: pre, e4, e5, tl, ?_, hs, hl4, hd4, hl5, hd5, htl⟩
        rw [List.cons_append, ← hdec]

/-- C8.  A URL ending in four digits, a dot, four-or-five digits and an
optional version suffix `vN` extracts to exactly that pattern with the
version suffix stripped; conversely every `ok` result exhibits such a
trailing pattern in the URL — so a URL containing no such trailing
pattern yields the malformed-record error, `extractArxivId` being
exhaustively `ok` or that error. -/
theorem extractArxivId_spec :
    (∀ (url : String) (pre d4 d5 vsuf : List Char),
      url.data = pre ++ (d4 ++ '.' :: (d5 ++ vsuf)) →
      d4.length = 4 → AllDigits d4 →
      (d5.length = 4 ∨ d5.length = 5) → AllDigits d5 → VSuffix vsuf →
      extractArxivId url = Except.ok (String.mk (d4 ++ '.' :: d5))) ∧
    (∀ (url : String) (s : String), extractArxivId url = Except.ok s →
      ∃ pre d4 d5 vsuf, url.data = pre ++ (d4 ++ '.' :: (d5 ++ vsuf)) ∧
        d4.length = 4 ∧ AllDigits d4 ∧
        (d5.length = 4 ∨ d5.length = 5) ∧ AllDigits d5 ∧ VSuffix vsuf ∧
        s = String.mk (d4 ++ '.' :: d5)) := by
  constructor
  · intro url pre d4 d5 vsuf hurl h4 hd4 h5 hd5 hv
    unfold extractArxivId
    rw [hurl, scanMatch_eq pre d4 d5 vsuf h4 hd4 h5 hd5 hv]
  · intro url s h
    unfold extractArxivId at h
    split at h
    · rename_i t hs
      injection h with h'
      obtain ⟨pre, e4, e5, tl, hdec, hst, h1, h2, h3, h4, h5⟩ :=
        scanMatch_sound url.data t hs
      exact ⟨pre, e4, e5, tl, hdec, h1, h2, h3, h4, h5, by rw [← h', hst]⟩
    · simp at h

theorem extractArxivId_spec_witness :
    extractArxivId "https://host/abs/2401.12345v2" =
      Except.ok (String.mk
        (['2', '4', '0', '1'] ++ '.' :: ['1', '2', '3', '4', '5'])) ∧
    String.mk (['2', '4', '0', '1'] ++ '.' :: ['1', '2', '3', '4', '5']) =
      "2401.12345" :=
  ⟨by
    have h := extractArxivId_spec.1 "https://host/abs/2401.12345v2"
      "https://host/abs/".data ['2', '4', '0', '1']
      ['1', '2', '3', '4', '5'] ['v', '2'] (by decide) rfl (by decide)
      (Or.inr rfl) (by decide)
      (Or.inr ⟨['2'], by decide, by decide, rfl⟩)
    exact h,
   by decide⟩

/-! ### Year-partitioned store pipeline (incremental update script) -/

/-- `organizePapersByYear` (incremental script, lines 77-91): group the
batch by the year parsed from `publishedDate` (`jsYear`; the JS object
key), each record appended to its year's group in batch order. -/
def organizePapersByYear (papers : List Paper) :
    List (Option Nat × List Paper) :=
  papers.foldl
    (fun acc paper =>
      setKey acc (jsYear paper.publishedDate)
        ((getKey acc (jsYear paper.publishedDate)).getD [] ++ [paper]))
    []

/-- One run of the incremental pipeline (lines 136-175): categorize the
batch, deduplicate it, group it by year, and for each year merge the
group into the loaded partition (`[]` when the year file is missing) and
save the result back.  The store is the map from year key to persisted
partition contents; per-year processing order does not affect any
partition's final contents since each group carries a distinct key. -/
def runPipeline (cats : List Category)
    (store : List (Option Nat × List Paper)) (batch : List Paper) :
    List (Option Nat × List Paper) :=
  let categorized := categorizePapers batch cats
  let uniq := (deduplicatePapers categorized).1
  let byYear := organizePapersByYear uniq
  byYear.foldl
    (fun st g =>
      setKey st g.1 (mergePapers ((getKey st g.1).getD []) g.2).merged)
    store

/-- A sequence of pipeline runs starting from the empty store. -/
def runPipelines (cats : List Category) (batches : List (List Paper)) :
    List (Option Nat × List Paper) :=
  batches.foldl (runPipeline cats) []

/-- The union of all persisted partitions' records. -/
def storePapers : List (Option Nat × List Paper) → List Paper
  | [] => []
  | kv :: rest => kv.2 ++ storePapers rest

/-- A record first fetched with a 2023 published date. -/
def sampleYr23 : Paper :=
  { id := "2777.00001", title := "y", abstract := "", authors := [],
    publishedDate := "2023-06-01T00:00:00Z", updatedDate := none,
    arxivUrl := none, categories := none, tags := none }

/-- The same id arriving in a later run with a 2024 published date. -/
def sampleYr24 : Paper :=
  { id := "2777.00001", title := "y", abstract := "", authors := [],
    publishedDate := "2024-06-01T00:00:00Z",
    updatedDate := some "2024-06-02T00:00:00Z",
    arxivUrl := none, categories := none, tags := none }

/-- C3 counterexample.  Two pipeline runs from the empty store, where
the second run delivers the same id with a different published year:
the record lands in the 2024 partition while the 2023 partition keeps
the old copy, so the persisted store holds two records with the same
id. -/
theorem store_uniqueness_counterexample :
    ¬ ((storePapers (runPipelines [] [[sampleYr23], [sampleYr24]])).map
        Paper.id).Nodup := by decide

theorem mem_setKey {κ α : Type} [DecidableEq κ] (m : List (κ × α))
    (k : κ) (v : α) (kv : κ × α) (h : kv ∈ setKey m k v) :
    kv ∈ m ∨ kv = (k, v) := by
  induction m with
  | nil =>
      simp only [setKey, List.mem_singleton] at h
      exact Or.inr h
  | cons kv0 m ih =>
      by_cases hk : kv0.1 = k
      · simp only [setKey, if_pos hk, List.mem_cons] at h
        rcases h with h | h
        · exact Or.inr h
        · exact Or.inl (List.mem_cons_of_mem _ h)
      · simp only [setKey, if_neg hk, List.mem_cons] at h
        rcases h with h | h
        · exact Or.inl (h ▸ List.mem_cons_self _ _)
        · rcases ih h with h | h
          · exact Or.inl (List.mem_cons_of_mem _ h)
          · exact Or.inr h

theorem getKey_of_mem_nodup {κ α : Type} [DecidableEq κ]
    (m : List (κ × α)) (kv : κ × α) (hnd : NodupKeys m) (h : kv ∈ m) :
    getKey m kv.1 = some kv.2 := by
  induction m with
  | nil => cases h
  | cons kv0 m ih =>
      rw [getKey_cons]
      rcases List.mem_cons.1 h with rfl | h
      · rw [if_pos rfl]
      · have hne : kv0.1 ≠ kv.1 := by
          intro he
          simp only [NodupKeys, keysOf, List.map_cons,
            List.nodup_cons] at hnd
          exact hnd.1 (he ▸ List.mem_map_of_mem Prod.fst h)
        rw [if_neg hne]
        refine ih ?_ h
        simp only [NodupKeys, keysOf, List.map_cons,
          List.nodup_cons] at hnd
        exact hnd.2

theorem mergePapers_ids_nodup (ex inc : List Paper) :
    (((mergePapers ex inc).merged).map Paper.id).Nodup := by
  rw [mergePapers_merged_eq]
  have hnd := nodupKeys_foldl_mergeStepM inc _ (nodupKeys_keyById ex)
  have hid := idKeys_foldl_mergeStepM inc _ (idKeys_keyById ex)
  rw [← keysOf_eq_ids _ hid]
  exact hnd

theorem keyById_pred (P : Paper → Prop) (ps : List Paper)
    (h : ∀ p ∈ ps, P p) : ∀ kv ∈ keyById ps, P kv.2 := by
  have aux : ∀ (l : List Paper) (m : List (String × Paper)),
      (∀ p ∈ l, P p) → (∀ kv ∈ m, P kv.2) →
      ∀ kv ∈ l.foldl (fun m p => setKey m p.id p) m, P kv.2 := by
    intro l
    induction l with
    | nil => intro m _ hm; exact hm
    | cons p l ih =>
        intro m hl hm
        refine ih _ (fun q hq => hl q (List.mem_cons_of_mem _ hq)) ?_
        intro kv hkv
        rcases mem_setKey m p.id p kv hkv with hkv | hkv
        · exact hm kv hkv
        · rw [hkv]
          exact hl p (List.mem_cons_self _ _)
  exact aux ps [] h (fun kv hkv => absurd hkv (List.not_mem_nil kv))

theorem foldl_mergeStepM_pred (P : Paper → Prop)
    (hmrg : ∀ e np, P np → P (mergeRecord e np)) (l : List Paper)
    (m : List (String × Paper)) (hm : ∀ kv ∈ m, P kv.2)
    (hl : ∀ np ∈ l, P np) :
    ∀ kv ∈ l.foldl mergeStepM m, P kv.2 := by
  induction l generalizing m with
  | nil => exact hm
  | cons np l ih =>
      refine ih (mergeStepM m np) ?_
        (fun q hq => hl q (List.mem_cons_of_mem _ hq))
      intro kv hkv
      unfold mergeStepM at hkv
      split at hkv
      · rcases mem_setKey _ _ _ kv hkv with hkv | hkv
        · exact hm kv hkv
        · rw [hkv]
          exact hl np (List.mem_cons_self _ _)
      · split at hkv
        · rcases mem_setKey _ _ _ kv hkv with hkv | hkv
          · exact hm kv hkv
          · rw [hkv]
            exact hmrg _ np (hl np (List.mem_cons_self _ _))
        · exact hm kv hkv

theorem mergePapers_pred (P : Paper → Prop)
    (hmrg : ∀ e np, P np → P (mergeRecord e np)) (ex inc : List Paper)
    (hex : ∀ e ∈ ex, P e) (hinc : ∀ np ∈ inc, P np) :
    ∀ p ∈ (mergePapers ex inc).merged, P p := by
  rw [mergePapers_merged_eq]
  intro p hp
  obtain ⟨kv, hkv, hkvp⟩ := List.mem_map.mp hp
  rw [← hkvp]
  exact foldl_mergeStepM_pred P hmrg inc (keyById ex)
    (keyById_pred P ex hex) hinc kv hkv

/-- Expected contents of a year group after folding a batch: previous
group (if any) extended by the matching records, a fresh group only when
a matching record exists. -/
def orgExpect (prev : Option (List Paper)) (f : List Paper) :
    Option (List Paper) :=
  match prev with
  | some g => some (g ++ f)
  | none => if f.isEmpty then none else some f

theorem organize_aux (l : List Paper)
    (acc : List (Option Nat × List Paper)) (y : Option Nat) :
    getKey
      (l.foldl
        (fun acc paper =>
          setKey acc (jsYear paper.publishedDate)
            ((getKey acc (jsYear paper.publishedDate)).getD [] ++ [paper]))
        acc) y
      = orgExpect (getKey acc y)
          (l.filter (fun p => jsYear p.publishedDate = y)) := by
  induction l generalizing acc with
  | nil => cases h : getKey acc y <;> simp [orgExpect, h]
  | cons p l ih =>
      rw [List.foldl_cons, ih]
      by_cases hy : jsYear p.publishedDate = y
      · rw [List.filter_cons_of_pos (by simp [hy]), hy,
          getKey_setKey_self]
        cases h : getKey acc y with
        | some g => simp [orgExpect, h]
        | none => simp [orgExpect, h]
      · rw [List.filter_cons_of_neg (by simp [hy]),
          getKey_setKey_ne acc (jsYear p.publishedDate) y _
            (fun he => hy he.symm)]

theorem nodupKeys_organize (l : List Paper) :
    NodupKeys (organizePapersByYear l) := by
  have aux : ∀ (l' : List Paper) (acc : List (Option Nat × List Paper)),
      NodupKeys acc →
      NodupKeys (l'.foldl
        (fun acc paper =>
          setKey acc (jsYear paper.publishedDate)
            ((getKey acc (jsYear paper.publishedDate)).getD [] ++ [paper]))
        acc) := by
    intro l'
    induction l' with
    | nil => intro acc h; exact h
    | cons p l' ih => intro acc h; exact ih _ (nodupKeys_setKey acc _ _ h)
  exact aux l [] (by simp [NodupKeys, keysOf])

theorem organize_group_eq (l : List Paper) (kv : Option Nat × List Paper)
    (h : kv ∈ organizePapersByYear l) :
    kv.2 = l.filter (fun p => jsYear p.publishedDate = kv.1) := by
  have hg := getKey_of_mem_nodup _ kv (nodupKeys_organize l) h
  have ha : getKey (organizePapersByYear l) kv.1 =
      orgExpect (getKey ([] : List (Option Nat × List Paper)) kv.1)
        (l.filter (fun p => jsYear p.publishedDate = kv.1)) :=
    organize_aux l [] kv.1
  rw [hg, getKey_nil] at ha
  cases hemp : (l.filter (fun p => jsYear p.publishedDate = kv.1)).isEmpty
  · rw [show orgExpect none
        (l.filter (fun p => jsYear p.publishedDate = kv.1)) =
        some (l.filter (fun p => jsYear p.publishedDate = kv.1)) from by
      simp [orgExpect, hemp]] at ha
    injection ha
  · rw [show orgExpect none
        (l.filter (fun p => jsYear p.publishedDate = kv.1)) = none from by
      simp [orgExpect, hemp]] at ha
    exact absurd ha (by simp)

theorem categorizePapers_mem (batch : List Paper) (cats : List Category) :
    ∀ q ∈ categorizePapers batch cats,
      ∃ b ∈ batch, q.id = b.id ∧ q.publishedDate = b.publishedDate := by
  intro q hq
  obtain ⟨b, hb, hbq⟩ := List.mem_map.mp hq
  exact ⟨b, hb, by rw [← hbq], by rw [← hbq]⟩

theorem dedup_fold_inv (P : Paper → Prop) (l : List Paper)
    (acc : List Paper × List DupInfo × List (String × Paper))
    (hl : ∀ p ∈ l, P p) (h1 : (acc.1.map Paper.id).Nodup)
    (h2 : ∀ s, (getKey acc.2.2 s).isSome = true ↔ s ∈ acc.1.map Paper.id)
    (h3 : ∀ p ∈ acc.1, P p) :
    (((l.foldl dedupStep acc).1.map Paper.id).Nodup) ∧
    ∀ p ∈ (l.foldl dedupStep acc).1, P p := by
  induction l generalizing acc with
  | nil => exact ⟨h1, h3⟩
  | cons p l ih =>
      rw [List.foldl_cons]
      cases hget : getKey acc.2.2 p.id with
      | some first =>
          rw [show dedupStep acc p = (acc.1,
              acc.2.1 ++ [⟨p.id, p.title, first.title⟩], acc.2.2) from by
            unfold dedupStep
            rw [hget]]
          exact ih (acc.1, acc.2.1 ++ [⟨p.id, p.title, first.title⟩],
            acc.2.2) (fun q hq => hl q (List.mem_cons_of_mem _ hq))
            h1 h2 h3
      | none =>
          rw [show dedupStep acc p =
              (acc.1 ++ [p], acc.2.1, setKey acc.2.2 p.id p) from by
            unfold dedupStep
            rw [hget]]
          have hnotin : p.id ∉ acc.1.map Paper.id := by
            intro hmem
            have := (h2 p.id).mpr hmem
            rw [hget] at this
            simp at this
          refine ih (acc.1 ++ [p], acc.2.1, setKey acc.2.2 p.id p)
            (fun q hq => hl q (List.mem_cons_of_mem _ hq)) ?_ ?_ ?_
          · simp only [List.map_append, List.map_cons, List.map_nil]
            rw [List.nodup_append]
            refine ⟨h1, List.nodup_singleton _, ?_⟩
            intro a ha
            simp only [List.mem_singleton]
            intro he
            exact hnotin (he ▸ ha)
          · intro s
            by_cases hs : s = p.id
            · subst hs
              rw [getKey_setKey_self]
              simp
            · rw [getKey_setKey_ne acc.2.2 p.id s p hs, h2 s]
              simp only [List.map_append, List.map_cons, List.map_nil,
                List.mem_append, List.mem_singleton]
              constructor
              · exact fun h => Or.inl h
              · rintro (h | h)
                · exact h
                · exact absurd h hs
          · intro q hq
            rcases List.mem_append.1 hq with hq | hq
            · exact h3 q hq
            · rw [List.mem_singleton.1 hq]
              exact hl p (List.mem_cons_self _ _)

theorem dedup_nodup_pred (P : Paper → Prop) (papers : List Paper)
    (hP : ∀ p ∈ papers, P p) :
    (((deduplicatePapers papers).1).map Paper.id).Nodup ∧
    ∀ p ∈ (deduplicatePapers papers).1, P p :=
  dedup_fold_inv P papers ([], [], []) hP (by simp)
    (fun s => by rw [getKey_nil]; simp)
    (fun p hp => absurd hp (List.not_mem_nil p))

/-- Invariant of the persisted store relative to a year function `yr` on
ids: partition keys are pairwise distinct, and every partition holds
records with pairwise-distinct ids whose published year and id-year both
equal the partition key. -/
def StoreInv (yr : String → Option Nat)
    (store : List (Option Nat × List Paper)) : Prop :=
  NodupKeys store ∧
  ∀ kv ∈ store, (kv.2.map Paper.id).Nodup ∧
    ∀ p ∈ kv.2, jsYear p.publishedDate = kv.1 ∧ yr p.id = kv.1

theorem runPipeline_inv (cats : List Category) (yr : String → Option Nat)
    (store : List (Option Nat × List Paper)) (batch : List Paper)
    (hbatch : ∀ b ∈ batch, yr b.id = jsYear b.publishedDate)
    (hinv : StoreInv yr store) :
    StoreInv yr (runPipeline cats store batch) := by
  have hcat : ∀ q ∈ categorizePapers batch cats,
      yr q.id = jsYear q.publishedDate := by
    intro q hq
    obtain ⟨b, hb, hq1, hq2⟩ := categorizePapers_mem batch cats q hq
    rw [hq1, hq2]
    exact hbatch b hb
  obtain ⟨huniqnd, huniqP⟩ := dedup_nodup_pred
    (fun q => yr q.id = jsYear q.publishedDate)
    (categorizePapers batch cats) hcat
  have hgroup : ∀ g ∈ organizePapersByYear
      ((deduplicatePapers (categorizePapers batch cats)).1),
      (g.2.map Paper.id).Nodup ∧
      ∀ p ∈ g.2, jsYear p.publishedDate = g.1 ∧ yr p.id = g.1 := by
    intro g hg
    have heq := organize_group_eq _ g hg
    constructor
    · rw [heq]
      exact List.Nodup.sublist
        (List.Sublist.map Paper.id (List.filter_sublist _)) huniqnd
    · intro p hp
      rw [heq] at hp
      obtain ⟨hpu, hpy⟩ := List.mem_filter.mp hp
      have hpy' : jsYear p.publishedDate = g.1 := of_decide_eq_true hpy
      refine ⟨hpy', ?_⟩
      rw [huniqP p hpu]
      exact hpy'
  have haux : ∀ (gs : List (Option Nat × List Paper))
      (st : List (Option Nat × List Paper)),
      (∀ g ∈ gs, (g.2.map Paper.id).Nodup ∧
        ∀ p ∈ g.2, jsYear p.publishedDate = g.1 ∧ yr p.id = g.1) →
      StoreInv yr st →
      StoreInv yr (gs.foldl
        (fun st g =>
          setKey st g.1 (mergePapers ((getKey st g.1).getD []) g.2).merged)
        st) := by
    intro gs
    induction gs with
    | nil => intro st _ h; exact h
    | cons g gs ih =>
        intro st hgs hst
        rw [List.foldl_cons]
        refine ih _ (fun g' hg' => hgs g' (List.mem_cons_of_mem _ hg')) ?_
        obtain ⟨hg1, hg2⟩ := hgs g (List.mem_cons_self _ _)
        constructor
        · exact nodupKeys_setKey st g.1 _ hst.1
        · intro kv hkv
          rcases mem_setKey st g.1 _ kv hkv with hkv | hkv
          · exact hst.2 kv hkv
          · rw [hkv]
            constructor
            · exact mergePapers_ids_nodup _ _
            · intro p hp
              refine mergePapers_pred
                (fun p => jsYear p.publishedDate = g.1 ∧ yr p.id = g.1)
                (fun e np hnp => hnp) _ _ ?_ ?_ p hp
              · intro e he
                cases hgk : getKey st g.1 with
                | none =>
                    rw [hgk] at he
                    simp at he
                | some part =>
                    rw [hgk] at he
                    have hmem := getKey_mem st g.1 part hgk
                    exact (hst.2 (g.1, part) hmem).2 e he
              · exact hg2
  show StoreInv yr ((organizePapersByYear
      ((deduplicatePapers (categorizePapers batch cats)).1)).foldl
    (fun st g =>
      setKey st g.1 (mergePapers ((getKey st g.1).getD []) g.2).merged)
    store)
  exact haux _ store hgroup hinv

theorem runs_inv (cats : List Category) (yr : String → Option Nat)
    (bs : List (List Paper))
    (hb : ∀ batch ∈ bs, ∀ b ∈ batch, yr b.id = jsYear b.publishedDate)
    (store : List (Option Nat × List Paper)) (hinv : StoreInv yr store) :
    StoreInv yr (bs.foldl (runPipeline cats) store) := by
  induction bs generalizing store with
  | nil => exact hinv
  | cons batch bs ih =>
      rw [List.foldl_cons]
      exact ih (fun b' hb' bb hbb =>
          hb b' (List.mem_cons_of_mem _ hb') bb hbb)
        (runPipeline cats store batch)
        (runPipeline_inv cats yr store batch
          (hb batch (List.mem_cons_self _ _)) hinv)

theorem mem_storePapers (store : List (Option Nat × List Paper))
    (p : Paper) (h : p ∈ storePapers store) : ∃ kv ∈ store, p ∈ kv.2 := by
  induction store with
  | nil => cases h
  | cons kv rest ih =>
      rcases List.mem_append.1 h with h | h
      · exact ⟨kv, List.mem_cons_self _ _, h⟩
      · obtain ⟨kv', hkv', hp⟩ := ih h
        exact ⟨kv', List.mem_cons_of_mem _ hkv', hp⟩

theorem store_nodup_of_inv (yr : String → Option Nat) :
    ∀ store, StoreInv yr store →
      ((storePapers store).map Paper.id).Nodup := by
  intro store
  induction store with
  | nil =>
      intro _
      simp [storePapers]
  | cons kv rest ih =>
      intro hinv
      obtain ⟨hnd, hmem⟩ := hinv
      have hnd' : (keysOf rest).Nodup ∧ kv.1 ∉ keysOf rest := by
        simp only [NodupKeys, keysOf, List.map_cons, List.nodup_cons] at hnd
        exact ⟨hnd.2, hnd.1⟩
      have hinv' : StoreInv yr rest :=
        ⟨hnd'.1, fun kv' hkv' => hmem kv' (List.mem_cons_of_mem _ hkv')⟩
      show ((kv.2 ++ storePapers rest).map Paper.id).Nodup
      rw [List.map_append, List.nodup_append]
      refine ⟨(hmem kv (List.mem_cons_self _ _)).1, ih hinv', ?_⟩
      intro a ha hab
      obtain ⟨p, hp, hpa⟩ := List.mem_map.mp ha
      obtain ⟨q, hq, hqa⟩ := List.mem_map.mp hab
      obtain ⟨kv', hkv', hqkv⟩ := mem_storePapers rest q hq
      have h1 : yr a = kv.1 := by
        rw [← hpa]
        exact ((hmem kv (List.mem_cons_self _ _)).2 p hp).2
      have h2 : yr a = kv'.1 := by
        rw [← hqa]
        exact ((hmem kv' (List.mem_cons_of_mem _ hkv')).2 q hqkv).2
      apply hnd'.2
      rw [h1.symm.trans h2]
      exact List.mem_map_of_mem Prod.fst hkv'

/-- C3 amended.  Provided every two records delivered across the runs
that share an id also share the year derived from `publishedDate`, any
sequence of pipeline runs from the empty store leaves a store in which
no two persisted records share an id. -/
theorem store_uniqueness_amended (cats : List Category)
    (batches : List (List Paper))
    (H : ∀ p ∈ batches.join, ∀ q ∈ batches.join, p.id = q.id →
      jsYear p.publishedDate = jsYear q.publishedDate) :
    ((storePapers (runPipelines cats batches)).map Paper.id).Nodup := by
  refine store_nodup_of_inv (fun i =>
      match batches.join.find? (fun b => b.id = i) with
      | some b => jsYear b.publishedDate
      | none => none) _
    (runs_inv cats _ batches ?_ []
      ⟨by simp [NodupKeys, keysOf],
        fun kv hkv => absurd hkv (List.not_mem_nil kv)⟩)
  intro batch hbatch b hbmem
  have hbj : b ∈ batches.join := List.mem_join.mpr ⟨batch, hbatch, hbmem⟩
  show (match batches.join.find? (fun b' => b'.id = b.id) with
    | some bb => jsYear bb.publishedDate
    | none => none) = jsYear b.publishedDate
  cases hf : batches.join.find? (fun b' => b'.id = b.id) with
  | none =>
      rw [List.find?_eq_none] at hf
      exact absurd (by simp) (hf b hbj)
  | some b' =>
      have h1 := List.find?_some hf
      simp only [decide_eq_true_eq] at h1
      have h2 := List.mem_of_find?_eq_some hf
      exact H b' h2 b hbj h1

theorem store_uniqueness_amended_witness :
    (∀ p ∈ ([[sampleYr23]] : List (List Paper)).join,
      ∀ q ∈ ([[sampleYr23]] : List (List Paper)).join, p.id = q.id →
        jsYear p.publishedDate = jsYear q.publishedDate) ∧
    ((storePapers (runPipelines [] [[sampleYr23]])).map Paper.id).Nodup :=
  ⟨by decide, store_uniqueness_amended [] [[sampleYr23]] (by decide)⟩
